import Mathlib

/-!
Verification of the RichDEM D8 terrain-analysis header
(`include/richdem/methods/d8_methods.hpp`).

The raster data model (`Array2D`), the D8 flow-accumulation algorithm
(`d8_flow_accum`), the upslope tracing (`d8_upslope_cells`), the SPI/CTI
composite indices and the 3×3 terrain operators are embedded as Lean
functions.  Cells are addressed by `(x, y) : ℤ × ℤ`; cell values of the
direction rasters are integers, terrain rasters carry real values.

The D8 direction constant tables (`dx`, `dy`, `d8_inverse`, `NO_FLOW`,
`FLOWDIR_NO_DATA`) live in `richdem/common/constants.hpp`, which is not part
of the sources being verified; they are modelled from the specification
(direction codes 1..8 cover the eight compass neighbours, code 3 is the east
step `(+1,0)`, `NO_FLOW = 0`, and stepping by a direction and then by its
inverse returns to the origin).
-/

namespace RichDEM

/-- A raster cell address `(x, y)`. -/
abbrev Cell : Type := ℤ × ℤ

/-- Shallow embedding of `Array2D<T>`: a rectangular grid of `width × height`
cells addressed by `(x, y)`, with a distinguished nodata sentinel and the two
cell linear dimensions used by the terrain operators.  Cell values are a total
function on `ℤ × ℤ`; only in-grid coordinates are meaningful. -/
structure Array2D (α : Type) where
  width : ℤ
  height : ℤ
  data : Cell → α
  noData : α
  cellLengthX : ℚ
  cellLengthY : ℚ

/-- `inGrid(x, y)`: bounds check of `Array2D`. -/
def Array2D.inGrid {α : Type} (g : Array2D α) (c : Cell) : Prop :=
  0 ≤ c.1 ∧ c.1 < g.width ∧ 0 ≤ c.2 ∧ c.2 < g.height

instance {α : Type} (g : Array2D α) (c : Cell) : Decidable (g.inGrid c) := by
  unfold Array2D.inGrid; infer_instance

/-- `isNoData(x, y)`: the cell value equals the nodata sentinel. -/
def Array2D.isNoData {α : Type} [DecidableEq α] (g : Array2D α) (c : Cell) : Prop :=
  g.data c = g.noData

instance {α : Type} [DecidableEq α] (g : Array2D α) (c : Cell) :
    Decidable (g.isNoData c) := by
  unfold Array2D.isNoData; infer_instance

/-- `getCellArea()` = cellLengthX · cellLengthY. -/
def Array2D.cellArea {α : Type} (g : Array2D α) : ℚ :=
  g.cellLengthX * g.cellLengthY

/-- Modelled from the spec: the `NO_FLOW` sentinel of `constants.hpp`
(a direction value distinct from the direction codes 1..8; by convention 0). -/
def NO_FLOW : ℤ := 0

/-- Modelled from the spec: the x-offsets `dx[1..8]` of the eight D8 compass
neighbours from `constants.hpp`; direction 3 is the east step `(+1, 0)`. -/
def dx8 : ℤ → ℤ
  | 1 => -1
  | 2 => -1
  | 3 => 1
  | 4 => 1
  | 5 => 0
  | 6 => 1
  | 7 => 0
  | 8 => -1
  | _ => 0

/-- Modelled from the spec: the y-offsets `dy[1..8]` of the eight D8 compass
neighbours from `constants.hpp`. -/
def dy8 : ℤ → ℤ
  | 1 => 0
  | 2 => -1
  | 3 => 0
  | 4 => 1
  | 5 => -1
  | 6 => -1
  | 7 => 1
  | 8 => 1
  | _ => 0

/-- Modelled from the spec: the inverse-direction table `d8_inverse` of
`constants.hpp`; stepping by `d` and then by `d8_inverse d` returns to the
origin. -/
def d8_inverse : ℤ → ℤ
  | 1 => 3
  | 2 => 4
  | 3 => 1
  | 4 => 2
  | 5 => 7
  | 6 => 8
  | 7 => 5
  | 8 => 6
  | _ => 0

/-- Modelled from the spec: the nodata sentinel `FLOWDIR_NO_DATA` of
`constants.hpp`, used by `d8_upslope_cells` for its output raster (a value
distinct from the marks 1 and 2). -/
def FLOWDIR_NO_DATA : ℤ := -1

/-- The downstream neighbour of cell `c`: `c + (dx[n], dy[n])` where `n` is
the direction value stored at `c`. -/
def target (g : Array2D ℤ) (c : Cell) : Cell :=
  (c.1 + dx8 (g.data c), c.2 + dy8 (g.data c))

/-- A data cell: in-grid and not nodata. -/
def dataCell (g : Array2D ℤ) (c : Cell) : Prop :=
  g.inGrid c ∧ ¬ g.isNoData c

instance (g : Array2D ℤ) (c : Cell) : Decidable (dataCell g c) := by
  unfold dataCell; infer_instance

/-- The condition under which the dependency-counting loop of `d8_flow_accum`,
ran at cell `c`, increments `dependency(z)` (the loop itself only visits
in-grid `c`, so the `inGrid c` conjunct is supplied by the loop range). -/
def depCond (g : Array2D ℤ) (c z : Cell) : Prop :=
  ¬ g.isNoData c ∧ g.data c ≠ NO_FLOW ∧ g.inGrid (target g c) ∧ target g c = z

instance (g : Array2D ℤ) (c z : Cell) : Decidable (depCond g c z) := by
  unfold depCond; infer_instance

/-- The dependency edge of the flow graph: data cell `c` flows into the
in-grid cell `z` (which may itself be nodata). -/
def edge (g : Array2D ℤ) (c z : Cell) : Prop :=
  g.inGrid c ∧ depCond g c z

instance (g : Array2D ℤ) (c z : Cell) : Decidable (edge g c z) := by
  unfold edge; infer_instance

/-- The propagation edge of the flow graph: data cell `c` flows into the
in-grid *data* cell `z`.  These are exactly the steps along which the drain
phase of `d8_flow_accum` moves accumulated area. -/
def pedge (g : Array2D ℤ) (c z : Cell) : Prop :=
  edge g c z ∧ ¬ g.isNoData z

instance (g : Array2D ℤ) (c z : Cell) : Decidable (pedge g c z) := by
  unfold pedge; infer_instance

/-- The cells of the grid in row-major order (`y` outer, `x` inner), the
order in which every scanning loop of the source visits them. -/
def cellsRowMajor {α : Type} (g : Array2D α) : List Cell :=
  (List.range g.height.toNat).flatMap fun y =>
    (List.range g.width.toNat).map fun x => (Int.ofNat x, Int.ofNat y)

/-- The cells of the grid as a finite set. -/
def cellsF {α : Type} (g : Array2D α) : Finset Cell :=
  (cellsRowMajor g).toFinset

/-- A well-formed D8 direction raster: every in-grid value is either the
nodata sentinel or one of `{NO_FLOW, 1, ..., 8}`, and the nodata sentinel is
distinct from those direction codes. -/
def WFDirs (g : Array2D ℤ) : Prop :=
  (∀ c ∈ cellsRowMajor g, g.data c = g.noData ∨ (0 ≤ g.data c ∧ g.data c ≤ 8)) ∧
    ¬ (0 ≤ g.noData ∧ g.noData ≤ 8)

instance (g : Array2D ℤ) : Decidable (WFDirs g) := by
  unfold WFDirs; infer_instance

/-- One iteration of the first loop of `d8_flow_accum` (dependency counting
and nodata marking) at cell `c`, acting on the pair
`(area, dependency)` of rasters.  Mirrors the loop body: a nodata cell gets
`area = noData (-1)`; otherwise, if the cell flows to an in-grid neighbour,
that neighbour's dependency count is incremented. -/
def dependencyStep (g : Array2D ℤ) (st : (Cell → ℤ) × (Cell → ℤ)) (c : Cell) :
    (Cell → ℤ) × (Cell → ℤ) :=
  if g.isNoData c then (Function.update st.1 c (-1), st.2)
  else if g.data c = NO_FLOW then st
  else if g.inGrid (target g c) then
    (st.1, Function.update st.2 (target g c) (st.2 (target g c) + 1))
  else st

/-- Phase 1 of `d8_flow_accum`: starting from `area ≡ 0` (the `resize` fill)
and `dependency ≡ 0`, scan all cells in row-major order. -/
def phase1 (g : Array2D ℤ) : (Cell → ℤ) × (Cell → ℤ) :=
  (cellsRowMajor g).foldl (dependencyStep g) (fun _ => 0, fun _ => 0)

/-- The state of the drain phase of `d8_flow_accum`: the area raster, the
dependency raster, the pending queue `sources`, and the trace of cells
already dequeued (in dequeue order). -/
structure DState where
  area : Cell → ℤ
  dep : Cell → ℤ
  pend : List Cell
  done : List Cell

/-- The body of the drain loop of `d8_flow_accum` for a dequeued cell `c`,
with `rest` the remaining queue: increment `area(c)`; if `c` flows to an
in-grid data neighbour `nb`, add `area(c)` onto `area(nb)`, decrement
`dependency(nb)`, and enqueue `nb` when its dependency reaches 0. -/
def processCell (g : Array2D ℤ) (c : Cell) (rest : List Cell) (s : DState) : DState :=
  let area1 := Function.update s.area c (s.area c + 1)
  if g.data c = NO_FLOW then ⟨area1, s.dep, rest, s.done ++ [c]⟩
  else if ¬ g.inGrid (target g c) then ⟨area1, s.dep, rest, s.done ++ [c]⟩
  else if g.isNoData (target g c) then ⟨area1, s.dep, rest, s.done ++ [c]⟩
  else
    let nb := target g c
    let area2 := Function.update area1 nb (area1 nb + area1 c)
    let dep2 := Function.update s.dep nb (s.dep nb - 1)
    ⟨area2, dep2, if dep2 nb = 0 then rest ++ [nb] else rest, s.done ++ [c]⟩

/-- The drain loop of `d8_flow_accum` (fuelled; the fuel is a strict upper
bound on `measureD`, which strictly decreases at every iteration, so the
loop always empties the queue). -/
def drainLoop (g : Array2D ℤ) : ℕ → DState → DState
  | 0, s => s
  | fuel + 1, s =>
    match s.pend with
    | [] => s
    | c :: rest => drainLoop g fuel (processCell g c rest s)

/-- Termination measure of the drain loop: queue length plus the total
remaining (nonnegative part of the) dependency over the grid. -/
def measureD (g : Array2D ℤ) (s : DState) : ℕ :=
  s.pend.length + (cellsF g).sum fun c => (s.dep c).toNat

/-- Phase 2 of `d8_flow_accum`: the initial source queue (all cells with zero
dependency that are not nodata, in row-major scan order), together with the
phase-1 rasters. -/
def initState (g : Array2D ℤ) : DState :=
  ⟨(phase1 g).1, (phase1 g).2,
    (cellsRowMajor g).filter fun c => decide ((phase1 g).2 c = 0 ∧ ¬ g.isNoData c),
    []⟩

/-- `d8_flow_accum`: dependency counting, source enumeration and drain.  The
`area` component of the result is the output raster of the source function;
`dep` is the final dependency raster used by the loop diagnostic. -/
def d8_flow_accum (g : Array2D ℤ) : DState :=
  drainLoop g (measureD g (initState g) + 1) (initState g)

/-- `dependency.countval(v)`: the number of cells of the final dependency
raster holding value `v`. -/
def countvalDep (g : Array2D ℤ) (v : ℤ) : ℤ :=
  ((cellsRowMajor g).countP fun c => decide ((d8_flow_accum g).dep c = v) : ℕ)

/-- The loop diagnostic at the end of `d8_flow_accum`: for `i = -1` down to
`-8`, add `dependency.countval(-1)` (the source counts the value `-1` on
every one of the eight iterations, not `i`). -/
def d8_flow_accum_loops (g : Array2D ℤ) : ℤ :=
  ([-1, -2, -3, -4, -5, -6, -7, -8] : List ℤ).foldl
    (fun loops _i => loops + countvalDep g (-1)) 0

/-- One step of the drain phase under an arbitrary processing order: some
pending cell (not necessarily the front of the queue) is dequeued and
processed.  The FIFO drain loop is the instance that always chooses
`pre = []`; a LIFO stack or a priority queue are other instances. -/
def Step (g : Array2D ℤ) (s t : DState) : Prop :=
  ∃ pre c post, s.pend = pre ++ c :: post ∧ t = processCell g c (pre ++ post) s

/-- A (possibly empty) sequence of drain steps. -/
def Run (g : Array2D ℤ) : DState → DState → Prop :=
  Relation.ReflTransGen (Step g)

/-- A cell is securable when every chain of upstream propagation edges into
it is finite, i.e. it is accessible for the upstream relation.  These are
exactly the cells the drain phase eventually dequeues; cells lying on or
downstream of a flow-direction cycle are not securable. -/
def securable (g : Array2D ℤ) (c : Cell) : Prop :=
  Acc (fun d z => pedge g d z) c

/-- `reaches g d c`: the flow path starting at `d` includes `c` (a chain of
propagation edges, possibly empty). -/
def reaches (g : Array2D ℤ) (d c : Cell) : Prop :=
  Relation.ReflTransGen (pedge g) d c

/-- The flow graph restricted to data cells has no directed cycle. -/
def Acyclic (g : Array2D ℤ) : Prop :=
  ∀ c, ¬ Relation.TransGen (pedge g) c c

open Classical in
/-- The number of data cells whose flow path includes `c`, counting `c`
itself. -/
noncomputable def upslopeCount (g : Array2D ℤ) (c : Cell) : ℕ :=
  ((cellsF g).filter fun e => dataCell g e ∧ reaches g e c).card

/-- A sink cell: a data cell with direction `NO_FLOW`, or whose downstream
step leaves the grid, or whose downstream cell is nodata. -/
def isSink (g : Array2D ℤ) (c : Cell) : Prop :=
  dataCell g c ∧
    (g.data c = NO_FLOW ∨ ¬ g.inGrid (target g c) ∨ g.isNoData (target g c))

instance (g : Array2D ℤ) (c : Cell) : Decidable (isSink g c) := by
  unfold isSink; infer_instance

/-- The number of data cells of the grid. -/
def numDataCells (g : Array2D ℤ) : ℕ :=
  ((cellsF g).filter fun c => dataCell g c).card

/-- `sgn`: the branchless sign function of the source,
`(T(0) < val) - (val < T(0))`. -/
def sgn (v : ℤ) : ℤ :=
  (if 0 < v then 1 else 0) - (if v < 0 then 1 else 0)

/-- A model of the IEEE `double` values arising in the Bresenham phase of
`d8_upslope_cells`: an exact finite value (carried as a signed fraction
`num / den` with `den > 0`, not necessarily reduced; the runs evaluated in
this file only produce values on which the double arithmetic is exact), a
signed infinity (from division of a nonzero value by zero), or NaN (from
`0/0`). -/
inductive FloatE : Type
  | val (num : ℤ) (den : ℤ)
  | pinf
  | ninf
  | nan

/-- IEEE addition on the modelled values. -/
def FloatE.add : FloatE → FloatE → FloatE
  | nan, _ => nan
  | _, nan => nan
  | val a b, val c d => val (a * d + c * b) (b * d)
  | pinf, ninf => nan
  | ninf, pinf => nan
  | pinf, _ => pinf
  | _, pinf => pinf
  | ninf, _ => ninf
  | _, ninf => ninf

/-- IEEE negation on the modelled values. -/
def FloatE.neg : FloatE → FloatE
  | val a b => val (-a) b
  | pinf => ninf
  | ninf => pinf
  | nan => nan

/-- `x < 0` on the modelled values (false for NaN; denominators are
positive, so only the numerator sign matters). -/
def FloatE.lt0 : FloatE → Bool
  | val a _ => decide (a < 0)
  | ninf => true
  | _ => false

/-- `0.5 ≤ x` on the modelled values (false for NaN; with `den > 0`,
`1/2 ≤ num/den` iff `den ≤ 2·num`). -/
def FloatE.geHalf : FloatE → Bool
  | val a b => decide (b ≤ 2 * a)
  | pinf => true
  | _ => false

/-- `(float)a / (float)b` for integer `a`, `b`. -/
def divIntF (a b : ℤ) : FloatE :=
  if b = 0 then
    (if a = 0 then FloatE.nan else if 0 < a then FloatE.pinf else FloatE.ninf)
  else if 0 < b then FloatE.val a b
  else FloatE.val (-a) (-b)

/-- State of the expansion phase of `d8_upslope_cells`: the output raster
and the expansion queue. -/
structure UState where
  upslope : Cell → ℤ
  queue : List Cell

/-- State of the Bresenham line-drawing loop of `d8_upslope_cells`. -/
structure LineState where
  upslope : Cell → ℤ
  queue : List Cell
  y : ℤ
  error : FloatE

/-- One iteration (for a given `x`) of the modified Bresenham line-drawing
loop of `d8_upslope_cells`. -/
def lineStep (deltay : ℤ) (deltaerr : FloatE) (st : LineState) (x : ℤ) : LineState :=
  let u1 := Function.update st.upslope (x, st.y) 2
  let q1 := st.queue ++ [(x, st.y)]
  let err1 := st.error.add deltaerr
  if err1.geHalf then
    ⟨Function.update u1 (x + 1, st.y) 2, q1 ++ [(x + 1, st.y)],
      st.y + sgn deltay, err1.add (FloatE.val (-1) 1)⟩
  else ⟨u1, q1, st.y, err1⟩

/-- The body of the expansion loop of `d8_upslope_cells` for the `n`-th
neighbour of a dequeued cell `c`: mark the neighbour with 1 and enqueue it
iff it is in-grid, its direction is neither `NO_FLOW` nor nodata, it is
still unmarked, and its direction points back at `c`. -/
def visitNeighbor (g : Array2D ℤ) (c : Cell) (n : ℤ) (u : UState) : UState :=
  let nb : Cell := (c.1 + dx8 n, c.2 + dy8 n)
  if ¬ g.inGrid nb then u
  else if g.data nb = NO_FLOW then u
  else if g.data nb = g.noData then u
  else if u.upslope nb = FLOWDIR_NO_DATA ∧ n = d8_inverse (g.data nb) then
    ⟨Function.update u.upslope nb 1, u.queue ++ [nb]⟩
  else u

/-- Processing of one dequeued cell of the expansion phase: visit its eight
neighbours in order. -/
def expandCell (g : Array2D ℤ) (c : Cell) (u : UState) : UState :=
  ([1, 2, 3, 4, 5, 6, 7, 8] : List ℤ).foldl (fun u n => visitNeighbor g c n u) u

/-- The expansion loop of `d8_upslope_cells` (fuelled; every enqueue marks a
previously unmarked in-grid cell, so the queue empties within
`initial queue length + number of grid cells` iterations). -/
def expandLoop (g : Array2D ℤ) : ℕ → UState → UState
  | 0, u => u
  | fuel + 1, u =>
    match u.queue with
    | [] => u
    | c :: rest => expandLoop g fuel (expandCell g c ⟨u.upslope, rest⟩)

/-- `d8_upslope_cells`: initialize the output to `FLOWDIR_NO_DATA`, rasterize
the line from `(x0,y0)` to `(x1,y1)` with marks 2, then expand backwards
against the flow directions with marks 1.  The endpoints are not validated
against the grid. -/
def d8_upslope_cells (x0 y0 x1 y1 : ℤ) (g : Array2D ℤ) : UState :=
  let s := if x0 > x1 then ((x1, y1), (x0, y0)) else ((x0, y0), (x1, y1))
  let deltax := s.2.1 - s.1.1
  let deltay := s.2.2 - s.1.2
  let deltaerr0 := divIntF deltay deltax
  let deltaerr := if deltaerr0.lt0 then deltaerr0.neg else deltaerr0
  let xs := (List.range (deltax + 1).toNat).map fun i => s.1.1 + (i : ℤ)
  let ls := xs.foldl (lineStep deltay deltaerr)
    ⟨fun _ => FLOWDIR_NO_DATA, [], s.1.2, FloatE.val 0 1⟩
  expandLoop g (ls.queue.length + g.width.toNat * g.height.toNat + 1)
    ⟨ls.upslope, ls.queue⟩

/-- The 3×3 neighbourhood values `a b c / d e f / g h i` of the terrain
operators. -/
structure TA_Setup_Vars where
  a : ℝ
  b : ℝ
  c : ℝ
  d : ℝ
  e : ℝ
  f : ℝ
  g : ℝ
  h : ℝ
  i : ℝ

/-- The Zevenbergen-Thorne fitted-surface coefficients. -/
structure TA_Setup_Curves_Vars where
  L : ℝ
  D : ℝ
  E : ℝ
  F : ℝ
  G : ℝ
  H : ℝ

/-- `TerrainSetup`: read the 3×3 neighbourhood of `(x, y)`, replacing any
off-grid or nodata neighbour by the centre value, then scale everything by
`zscale`. -/
noncomputable def TerrainSetup (el : Array2D ℝ) (x y : ℤ) (zscale : ℝ) : TA_Setup_Vars :=
  let ctr := el.data (x, y)
  let pick : ℤ → ℤ → ℝ := fun px py =>
    if el.inGrid (px, py) ∧ el.data (px, py) ≠ el.noData then el.data (px, py) else ctr
  ⟨pick (x - 1) (y - 1) * zscale, pick x (y - 1) * zscale, pick (x + 1) (y - 1) * zscale,
    pick (x - 1) y * zscale, ctr * zscale, pick (x + 1) y * zscale,
    pick (x - 1) (y + 1) * zscale, pick x (y + 1) * zscale, pick (x + 1) (y + 1) * zscale⟩

/-- `TerrainCurvatureSetup`: the Zevenbergen-Thorne coefficients of the
fitted surface over the 3×3 neighbourhood. -/
noncomputable def TerrainCurvatureSetup (el : Array2D ℝ) (x y : ℤ) (zscale : ℝ) : TA_Setup_Curves_Vars :=
  let tsv := TerrainSetup el x y zscale
  let L : ℝ := (el.cellLengthX : ℝ)
  ⟨L, ((tsv.d + tsv.f) / 2 - tsv.e) / L / L, ((tsv.b + tsv.h) / 2 - tsv.e) / L / L,
    (-tsv.a + tsv.c + tsv.g - tsv.i) / 4 / L / L, (-tsv.d + tsv.f) / 2 / L,
    (tsv.b - tsv.h) / 2 / L⟩

/-- The value taken by the C function `atan2` on IEEE doubles whose exact
values are `y` and `x`, with the IEEE sign bits `ys` and `xs` (`true` = negative) supplied
separately; the sign bits are consulted only where IEEE semantics
distinguishes `+0.0` from `-0.0` (C99 Annex F.10.1.4): `atan2(±0, x < 0)`
and `atan2(±0, -0.0)` return `±π`, while `atan2(±0, +0.0)` returns `±0`. -/
noncomputable def atan2ieee (y x : ℝ) (ys xs : Bool) : ℝ :=
  if 0 < x then Real.arctan (y / x)
  else if x < 0 then
    (if 0 < y then Real.arctan (y / x) + Real.pi
     else if y < 0 then Real.arctan (y / x) - Real.pi
     else if ys then -Real.pi else Real.pi)
  else if 0 < y then Real.pi / 2
  else if y < 0 then -(Real.pi / 2)
  else if xs then (if ys then -Real.pi else Real.pi) else 0

/-- `Terrain_Aspect`: aspect in degrees in the manner of Horn 1981.  The
`atan2` call receives `dzdy` and `-dzdx`; when one of those doubles is zero
its IEEE sign bit matters, and it is computed exactly: a zero numerator of
`dzdx`/`dzdy` is `+0.0` (an IEEE subtraction of equal finite values, then
divided by the positive constant 8), so a zero `dzdy` carries the sign of
`cellLengthY`, and a zero `-dzdx` is negative exactly when `cellLengthX` is
positive.  (Cell lengths are assumed nonzero: a zero cell length makes the
C code divide `0.0/0.0` and produce NaN, which this real-valued model does
not represent.) -/
noncomputable def Terrain_Aspect (el : Array2D ℝ) (x y : ℤ) (zscale : ℝ) : ℝ :=
  let tsv := TerrainSetup el x y zscale
  let dzdx := ((tsv.c + 2 * tsv.f + tsv.i) - (tsv.a + 2 * tsv.d + tsv.g)) / 8
    / (el.cellLengthX : ℝ)
  let dzdy := ((tsv.g + 2 * tsv.h + tsv.i) - (tsv.a + 2 * tsv.b + tsv.c)) / 8
    / (el.cellLengthY : ℝ)
  let the_aspect := 180 / Real.pi * atan2ieee dzdy (-dzdx)
    (decide (el.cellLengthY < 0)) (decide (0 < el.cellLengthX))
  if the_aspect < 0 then 90 - the_aspect
  else if the_aspect > 90 then 360 - the_aspect + 90
  else 90 - the_aspect

/-- `Terrain_Slope_RiseRun`: rise/run slope along the maximum gradient of
the Horn 1981 fitted surface. -/
noncomputable def Terrain_Slope_RiseRun (el : Array2D ℝ) (x y : ℤ) (zscale : ℝ) : ℝ :=
  let tsv := TerrainSetup el x y zscale
  let dzdx := ((tsv.c + 2 * tsv.f + tsv.i) - (tsv.a + 2 * tsv.d + tsv.g)) / 8
    / (el.cellLengthX : ℝ)
  let dzdy := ((tsv.g + 2 * tsv.h + tsv.i) - (tsv.a + 2 * tsv.b + tsv.c)) / 8
    / (el.cellLengthY : ℝ)
  Real.sqrt (dzdx * dzdx + dzdy * dzdy)

/-- `Terrain_Curvature`. -/
noncomputable def Terrain_Curvature (el : Array2D ℝ) (x y : ℤ) (zscale : ℝ) : ℝ :=
  let tscv := TerrainCurvatureSetup el x y zscale;
  -2 * (tscv.D + tscv.E) * 100

/-- `Terrain_Planform_Curvature`. -/
noncomputable def Terrain_Planform_Curvature (el : Array2D ℝ) (x y : ℤ) (zscale : ℝ) : ℝ :=
  let p := TerrainCurvatureSetup el x y zscale
  if p.G = 0 ∧ p.H = 0 then 0
  else -2 * (p.D * p.H * p.H + p.E * p.G * p.G - p.F * p.G * p.H) / (p.G * p.G + p.H * p.H) * 100

/-- `Terrain_Profile_Curvature`. -/
noncomputable def Terrain_Profile_Curvature (el : Array2D ℝ) (x y : ℤ) (zscale : ℝ) : ℝ :=
  let p := TerrainCurvatureSetup el x y zscale
  if p.G = 0 ∧ p.H = 0 then 0
  else 2 * (p.D * p.G * p.G + p.E * p.H * p.H + p.F * p.G * p.H) / (p.G * p.G + p.H * p.H) * 100

/-- The error message thrown by `TA_SPI` on inputs of unequal dimensions. -/
def spiMismatchMsg : String :=
  "Couldn\x27t calculate SPI! The input matricies were of unequal dimensions!"

/-- The error message thrown by `TA_CTI` on inputs of unequal dimensions. -/
def ctiMismatchMsg : String :=
  "Couldn\x27t calculate CTI! The input matricies were of unequal dimensions!"

/-- `TA_SPI`: on inputs of unequal dimensions throw (first component is the
error, and the caller's `result` raster — the second component — is left
unchanged); otherwise resize `result` to the shape of `flow_accumulation`,
with nodata sentinel `-1`, and fill it with
`log((A / cellArea) * (S + 0.001))`, nodata cells propagating. -/
noncomputable def TA_SPI (fa rs res : Array2D ℝ) :
    Except String Unit × Array2D ℝ :=
  if fa.width ≠ rs.width ∨ fa.height ≠ rs.height then (Except.error spiMismatchMsg, res)
  else
    (Except.ok (),
      ⟨fa.width, fa.height,
        (fun c =>
          if fa.data c = fa.noData ∨ rs.data c = rs.noData then -1
          else Real.log ((fa.data c / (fa.cellArea : ℝ)) * (rs.data c + 0.001))),
        -1, fa.cellLengthX, fa.cellLengthY⟩)

/-- `TA_CTI`: as `TA_SPI` but with `log((A / cellArea) / (S + 0.001))`. -/
noncomputable def TA_CTI (fa rs res : Array2D ℝ) :
    Except String Unit × Array2D ℝ :=
  if fa.width ≠ rs.width ∨ fa.height ≠ rs.height then (Except.error ctiMismatchMsg, res)
  else
    (Except.ok (),
      ⟨fa.width, fa.height,
        (fun c =>
          if fa.data c = fa.noData ∨ rs.data c = rs.noData then -1
          else Real.log ((fa.data c / (fa.cellArea : ℝ)) / (rs.data c + 0.001))),
        -1, fa.cellLengthX, fa.cellLengthY⟩)

/-- The 1×5 direction raster `[3, 3, 3, 3, NO_FLOW]` of the single-chain
scenario (direction 3 = east). -/
def chain5 : Array2D ℤ :=
  ⟨5, 1, (fun c => if c.1 ≤ 3 then 3 else 0), -1, 1, 1⟩

/-- A 2×1 direction raster holding a two-cycle: `(0,0)` flows east into
`(1,0)` and `(1,0)` flows west into `(0,0)`. -/
def cyc2 : Array2D ℤ :=
  ⟨2, 1, (fun c => if c.1 = 0 then 3 else 1), -1, 1, 1⟩

/-- A 10×10 direction raster where every cell flows east. -/
def allEast10 : Array2D ℤ :=
  ⟨10, 10, (fun _ => 3), -1, 1, 1⟩

/-- A 2×1 direction raster with two independent `NO_FLOW` cells (both are
sources, so the drain may process them in either order). -/
def twoSinks : Array2D ℤ :=
  ⟨2, 1, (fun _ => 0), -1, 1, 1⟩

/-- The marking expected of the amended upslope-trace scenario: the
degenerate vertical segment rasterizes to `(5,0)` and `(6,0)` only, and the
backward expansion then marks `(0,0) … (4,0)`. -/
def upslopeTraceExpected : Cell → ℤ := fun c =>
  if c = (5, 0) ∨ c = (6, 0) then 2
  else if 0 ≤ c.1 ∧ c.1 ≤ 4 ∧ c.2 = 0 then 1
  else FLOWDIR_NO_DATA

/-- The initial dependency count of cell `z`: the number of in-grid data
cells flowing into it (phase 1 of `d8_flow_accum`). -/
def initDep (g : Array2D ℤ) (z : Cell) : ℤ :=
  (((cellsF g).filter fun c => edge g c z).card : ℤ)

/-- The area raster produced by phase 1 of `d8_flow_accum`: `-1` on in-grid
nodata cells, `0` elsewhere. -/
def initArea (g : Array2D ℤ) (c : Cell) : ℤ :=
  if g.inGrid c ∧ g.isNoData c then -1 else 0

/-- The set of propagation predecessors of `c` lying in the trace `dn` of
already-dequeued cells. -/
def donePreds (g : Array2D ℤ) (dn : List Cell) (c : Cell) : Finset Cell :=
  (cellsF g).filter fun d => pedge g d c ∧ d ∈ dn

/-- The master invariant of the drain phase of `d8_flow_accum`, preserved by
every step regardless of the processing order:

* dequeued and pending cells are data cells;
* no cell occurs twice among the dequeued and pending cells;
* the dependency raster counts the not-yet-dequeued upstream neighbours;
* a data cell has been enqueued (dequeued or pending) exactly when all its
  upstream neighbours have been dequeued;
* every enqueued cell is securable;
* the area of each cell is its phase-1 value, plus 1 if it was dequeued
  (the self-contribution), plus the area of its dequeued upstream
  neighbours (whose area values are final). -/
structure Inv (g : Array2D ℤ) (s : DState) : Prop where
  dataDone : ∀ c ∈ s.done, dataCell g c
  dataPend : ∀ c ∈ s.pend, dataCell g c
  nodup : (s.done ++ s.pend).Nodup
  depEq : ∀ c, s.dep c = initDep g c - ((donePreds g s.done c).card : ℤ)
  entered : ∀ c, dataCell g c →
    ((c ∈ s.done ∨ c ∈ s.pend) ↔ ∀ d, pedge g d c → d ∈ s.done)
  acc : ∀ c, c ∈ s.done ∨ c ∈ s.pend → securable g c
  areaEq : ∀ c, s.area c =
    initArea g c + (if c ∈ s.done then 1 else 0) + (donePreds g s.done c).sum s.area

/-- The area raster after the self-increment `area(c)++` of the drain loop. -/
def pushArea (s : DState) (c : Cell) : Cell → ℤ :=
  Function.update s.area c (s.area c + 1)

/-- A 2×1 flow-accumulation raster for the SPI/CTI shape check. -/
noncomputable def spiFa : Array2D ℝ :=
  ⟨2, 1, (fun _ => (4 : ℝ)), -9999, 1, 1⟩

/-- A 2×1 percent-slope raster matching `spiFa` in shape. -/
noncomputable def spiRs : Array2D ℝ :=
  ⟨2, 1, (fun _ => (1 : ℝ)), -9999, 1, 1⟩

/-- A 3×1 percent-slope raster whose width differs from `spiFa`. -/
noncomputable def spiRsBad : Array2D ℝ :=
  ⟨3, 1, (fun _ => (1 : ℝ)), -9999, 1, 1⟩

/-- A pre-existing 1×1 result raster, used to observe whether a failing
`TA_SPI`/`TA_CTI` call leaves the result of the caller untouched. -/
noncomputable def spiRes : Array2D ℝ :=
  ⟨1, 1, (fun _ => (7 : ℝ)), -2, 1, 1⟩

/-- A 1×1 constant-elevation raster: its (edge-replaced) 3×3 neighbourhood
is perfectly flat. -/
noncomputable def flat1 : Array2D ℝ :=
  ⟨1, 1, (fun _ => (0 : ℝ)), -9999, 1, 1⟩

/-- A 5×5 planar elevation raster `E(x, y) = 3x` with unit cell lengths. -/
noncomputable def plane5 : Array2D ℝ :=
  ⟨5, 5, (fun c => 3 * (c.1 : ℝ)), -9999, 1, 1⟩

/-! ### Basic facts about the grid and the flow graph -/

theorem mem_cellsRowMajor {α : Type} (g : Array2D α) (c : Cell) :
    c ∈ cellsRowMajor g ↔ g.inGrid c := by
  obtain ⟨cx, cy⟩ := c
  unfold cellsRowMajor Array2D.inGrid
  simp only [List.mem_flatMap, List.mem_map, List.mem_range, Prod.mk.injEq,
    Int.ofNat_eq_natCast]
  constructor
  · rintro ⟨y, hy, x, hx, rfl, rfl⟩
    refine ⟨by omega, by omega, by omega, by omega⟩
  · rintro ⟨h1, h2, h3, h4⟩
    exact ⟨cy.toNat, by omega, cx.toNat, by omega, by omega, by omega⟩

theorem nodup_cellsRowMajor {α : Type} (g : Array2D α) : (cellsRowMajor g).Nodup := by
  unfold cellsRowMajor
  refine List.nodup_flatMap.2 ⟨fun y _ => ?_, ?_⟩
  · refine List.Nodup.map ?_ (List.nodup_range _)
    intro a b h
    exact Int.ofNat.inj (Prod.mk.injEq .. ▸ h).1
  · refine (List.nodup_range _).imp ?_
    intro y₁ y₂ hne
    simp only [Function.onFun, List.disjoint_left, List.mem_map, List.mem_range]
    rintro c ⟨x₁, _, rfl⟩ ⟨x₂, _, h⟩
    have := (Prod.mk.injEq .. ▸ h).2
    exact hne (Int.ofNat.inj this.symm)

theorem mem_cellsF {α : Type} (g : Array2D α) (c : Cell) :
    c ∈ cellsF g ↔ g.inGrid c := by
  rw [cellsF, List.mem_toFinset, mem_cellsRowMajor]

theorem card_cellsF {α : Type} (g : Array2D α) :
    (cellsF g).card = (cellsRowMajor g).length :=
  List.toFinset_card_of_nodup (nodup_cellsRowMajor g)

theorem offset_ne_zero {n : ℤ} (h1 : 1 ≤ n) (h2 : n ≤ 8) : ¬ (dx8 n = 0 ∧ dy8 n = 0) := by
  interval_cases n <;> simp [dx8, dy8]

theorem pedge_dataCell_left {g : Array2D ℤ} {d c : Cell} (h : pedge g d c) :
    dataCell g d :=
  ⟨h.1.1, h.1.2.1⟩

theorem pedge_dataCell_right {g : Array2D ℤ} {d c : Cell} (h : pedge g d c) :
    dataCell g c := by
  have : g.inGrid c := h.1.2.2.2.2 ▸ h.1.2.2.2.1
  exact ⟨this, h.2⟩

theorem pedge_target {g : Array2D ℤ} {d c : Cell} (h : pedge g d c) :
    c = target g d := h.1.2.2.2.2.symm

theorem pedge_unique {g : Array2D ℤ} {d c₁ c₂ : Cell} (h₁ : pedge g d c₁)
    (h₂ : pedge g d c₂) : c₁ = c₂ := by
  rw [pedge_target h₁, pedge_target h₂]

theorem dir_range {g : Array2D ℤ} (hWF : WFDirs g) {c : Cell} (hc : dataCell g c)
    (hnf : g.data c ≠ NO_FLOW) : 1 ≤ g.data c ∧ g.data c ≤ 8 := by
  have := hWF.1 c ((mem_cellsRowMajor g c).2 hc.1)
  rcases this with h | h
  · exact absurd h hc.2
  · refine ⟨?_, h.2⟩
    rcases lt_or_eq_of_le h.1 with h' | h'
    · omega
    · exact absurd h'.symm hnf

theorem target_ne_self {g : Array2D ℤ} (hWF : WFDirs g) {c : Cell}
    (hc : dataCell g c) (hnf : g.data c ≠ NO_FLOW) : target g c ≠ c := by
  obtain ⟨h1, h8⟩ := dir_range hWF hc hnf
  have := offset_ne_zero h1 h8
  unfold target
  intro h
  obtain ⟨hx, hy⟩ := Prod.mk.injEq .. ▸ h
  exact this ⟨by omega, by omega⟩

theorem pedge_irrefl {g : Array2D ℤ} (hWF : WFDirs g) (c : Cell) : ¬ pedge g c c := by
  intro h
  exact target_ne_self hWF (pedge_dataCell_left h) h.1.2.2.1 (pedge_target h).symm

theorem edge_iff_pedge {g : Array2D ℤ} {d c : Cell} (hc : dataCell g c) :
    edge g d c ↔ pedge g d c :=
  ⟨fun h => ⟨h, hc.2⟩, fun h => h.1⟩

/-! ### Phase 1: the dependency fold computes `initArea` and `initDep` -/

theorem foldl_dependencyStep_fst (g : Array2D ℤ) (l : List Cell)
    (st : (Cell → ℤ) × (Cell → ℤ)) (z : Cell) :
    (l.foldl (dependencyStep g) st).1 z =
      if z ∈ l ∧ g.isNoData z then -1 else st.1 z := by
  induction l generalizing st with
  | nil => simp
  | cons c l IH =>
    rw [List.foldl_cons, IH]
    by_cases hzl : z ∈ l ∧ g.isNoData z
    · rw [if_pos hzl, if_pos ⟨List.mem_cons.2 (Or.inr hzl.1), hzl.2⟩]
    · rw [if_neg hzl]
      unfold dependencyStep
      by_cases hnd : g.isNoData c
      · simp only [hnd, if_true]
        by_cases hzc : z = c
        · subst hzc
          simp only [Function.update_same]
          rw [if_pos ⟨List.mem_cons_self .., hnd⟩]
        · rw [Function.update_noteq hzc]
          rw [if_neg]
          rintro ⟨hmem, hz⟩
          rcases List.mem_cons.1 hmem with h | h
          · exact hzc h
          · exact hzl ⟨h, hz⟩
      · have hmemz : ¬ (z ∈ c :: l ∧ g.isNoData z) := by
          rintro ⟨hmem, hz⟩
          rcases List.mem_cons.1 hmem with h | h
          · exact hnd (h ▸ hz)
          · exact hzl ⟨h, hz⟩
        rw [if_neg hmemz]
        split_ifs <;> rfl

theorem foldl_dependencyStep_snd (g : Array2D ℤ) (l : List Cell)
    (st : (Cell → ℤ) × (Cell → ℤ)) (z : Cell) :
    (l.foldl (dependencyStep g) st).2 z =
      st.2 z + (l.countP fun c => decide (depCond g c z) : ℕ) := by
  induction l generalizing st with
  | nil => simp
  | cons c l IH =>
    rw [List.foldl_cons, IH, List.countP_cons]
    have hstep : (dependencyStep g st c).2 z =
        st.2 z + if depCond g c z then 1 else 0 := by
      unfold dependencyStep depCond
      by_cases h1 : g.isNoData c
      · simp [h1]
      · simp only [h1, if_false]
        by_cases h2 : g.data c = NO_FLOW
        · simp [h2]
        · simp only [h2, if_false]
          by_cases h3 : g.inGrid (target g c)
          · simp only [h3, if_true]
            by_cases h4 : target g c = z
            · subst h4
              simp [Function.update_same, h2, h3]
            · rw [Function.update_noteq (fun h => h4 h.symm)]
              simp [h2, h3, h4]
          · simp [h3]
    rw [hstep]
    by_cases hc : depCond g c z <;> simp [hc] <;> push_cast <;> ring

theorem countP_cellsRowMajor_eq_card {g : Array2D ℤ} {p : Cell → Prop}
    [DecidablePred p] :
    ((cellsRowMajor g).countP fun c => decide (p c)) = ((cellsF g).filter p).card := by
  rw [List.countP_eq_length_filter,
    ← List.toFinset_card_of_nodup ((nodup_cellsRowMajor g).filter _)]
  congr 1
  ext a
  simp [cellsF, List.mem_filter]

theorem phase1_fst (g : Array2D ℤ) : (phase1 g).1 = initArea g := by
  funext z
  rw [phase1, foldl_dependencyStep_fst, initArea]
  by_cases h : g.inGrid z ∧ g.isNoData z
  · rw [if_pos h, if_pos ⟨(mem_cellsRowMajor g z).2 h.1, h.2⟩]
  · rw [if_neg h, if_neg fun hc => h ⟨(mem_cellsRowMajor g z).1 hc.1, hc.2⟩]

theorem phase1_snd (g : Array2D ℤ) (z : Cell) : (phase1 g).2 z = initDep g z := by
  rw [phase1, foldl_dependencyStep_snd, countP_cellsRowMajor_eq_card, initDep]
  have : (cellsF g).filter (fun c => depCond g c z) = (cellsF g).filter fun c => edge g c z := by
    apply Finset.filter_congr
    intro c hc
    have : g.inGrid c := (mem_cellsF g c).1 hc
    unfold edge
    simp [this]
  rw [this]
  ring

/-! ### The drain loop: measure decrease, termination, runs -/

theorem pend_length_of_split {s : DState} {pre post : List Cell} {c : Cell}
    (h : s.pend = pre ++ c :: post) :
    s.pend.length = pre.length + post.length + 1 := by
  rw [h]; simp; omega

theorem processCell_noprop {g : Array2D ℤ} {c : Cell} {rest : List Cell} {s : DState}
    (h : g.data c = NO_FLOW ∨ ¬ g.inGrid (target g c) ∨ g.isNoData (target g c)) :
    processCell g c rest s = ⟨pushArea s c, s.dep, rest, s.done ++ [c]⟩ := by
  unfold processCell pushArea
  rcases h with h | h | h
  · rw [if_pos h]
  · by_cases h1 : g.data c = NO_FLOW
    · rw [if_pos h1]
    · rw [if_neg h1, if_pos h]
  · by_cases h1 : g.data c = NO_FLOW
    · rw [if_pos h1]
    · by_cases h2 : ¬ g.inGrid (target g c)
      · rw [if_neg h1, if_pos h2]
      · rw [if_neg h1, if_neg h2, if_pos h]

theorem processCell_prop {g : Array2D ℤ} {c : Cell} {rest : List Cell} {s : DState}
    (h1 : g.data c ≠ NO_FLOW) (h2 : g.inGrid (target g c))
    (h3 : ¬ g.isNoData (target g c)) :
    processCell g c rest s =
      ⟨Function.update (pushArea s c) (target g c)
          (pushArea s c (target g c) + pushArea s c c),
        Function.update s.dep (target g c) (s.dep (target g c) - 1),
        if s.dep (target g c) - 1 = 0 then rest ++ [target g c] else rest,
        s.done ++ [c]⟩ := by
  unfold processCell pushArea
  rw [if_neg h1, if_neg (by simpa using h2), if_neg h3]
  simp only [Function.update_same]

theorem measureD_step {g : Array2D ℤ} {s t : DState} (h : Step g s t) :
    measureD g t < measureD g s := by
  obtain ⟨pre, c, post, hp, rfl⟩ := h
  have hlen := pend_length_of_split hp
  by_cases hprop : g.data c ≠ NO_FLOW ∧ g.inGrid (target g c) ∧ ¬ g.isNoData (target g c)
  · obtain ⟨h1, h2, h3⟩ := hprop
    rw [processCell_prop h1 h2 h3]
    have hmem : target g c ∈ cellsF g := (mem_cellsF g _).2 h2
    have hupd : (fun z => ((Function.update s.dep (target g c)
          (s.dep (target g c) - 1)) z).toNat) =
        Function.update (fun z => (s.dep z).toNat) (target g c)
          (s.dep (target g c) - 1).toNat := by
      funext z
      by_cases hzc : z = target g c
      · subst hzc; simp
      · rw [Function.update_noteq hzc, Function.update_noteq hzc]
    have hsum : ((cellsF g).sum fun z =>
        ((Function.update s.dep (target g c) (s.dep (target g c) - 1)) z).toNat) =
        (s.dep (target g c) - 1).toNat +
          ((cellsF g).erase (target g c)).sum fun z => (s.dep z).toNat := by
      rw [hupd, Finset.sum_update_of_mem hmem, Finset.erase_eq]
    have hsum2 : ((cellsF g).sum fun z => (s.dep z).toNat) =
        (s.dep (target g c)).toNat +
          ((cellsF g).erase (target g c)).sum fun z => (s.dep z).toNat :=
      (Finset.add_sum_erase _ _ hmem).symm
    unfold measureD
    simp only [hsum]
    by_cases hz : s.dep (target g c) - 1 = 0
    · rw [if_pos hz]
      simp only [List.length_append, List.length_cons, List.length_nil]
      omega
    · rw [if_neg hz]
      simp only [List.length_append]
      omega
  · rw [processCell_noprop (by tauto)]
    unfold measureD
    simp only [List.length_append]
    omega

theorem drainLoop_succ_cons (g : Array2D ℤ) (fuel : ℕ) (s : DState) (c : Cell)
    (rest : List Cell) (h : s.pend = c :: rest) :
    drainLoop g (fuel + 1) s = drainLoop g fuel (processCell g c rest s) := by
  have hu : drainLoop g (fuel + 1) s =
      match s.pend with
      | [] => s
      | c :: rest => drainLoop g fuel (processCell g c rest s) := rfl
  rw [hu, h]

theorem step_of_cons {g : Array2D ℤ} {s : DState} {c : Cell} {rest : List Cell}
    (h : s.pend = c :: rest) : Step g s (processCell g c rest s) :=
  ⟨[], c, rest, by simpa using h, by simp⟩

theorem drainLoop_run (g : Array2D ℤ) (fuel : ℕ) (s : DState) :
    Run g s (drainLoop g fuel s) := by
  induction fuel generalizing s with
  | zero => exact Relation.ReflTransGen.refl
  | succ fuel IH =>
    cases hp : s.pend with
    | nil =>
      unfold drainLoop
      rw [hp]
      exact Relation.ReflTransGen.refl
    | cons c rest =>
      rw [drainLoop_succ_cons g fuel s c rest hp]
      exact Relation.ReflTransGen.head (step_of_cons hp) (IH _)

theorem drainLoop_pend_empty (g : Array2D ℤ) (fuel : ℕ) (s : DState)
    (h : measureD g s < fuel) : (drainLoop g fuel s).pend = [] := by
  induction fuel generalizing s with
  | zero => omega
  | succ fuel IH =>
    cases hp : s.pend with
    | nil =>
      unfold drainLoop
      rw [hp]
      exact hp
    | cons c rest =>
      rw [drainLoop_succ_cons g fuel s c rest hp]
      have := measureD_step (step_of_cons (g := g) hp)
      exact IH _ (by omega)

theorem d8_flow_accum_run (g : Array2D ℤ) : Run g (initState g) (d8_flow_accum g) :=
  drainLoop_run g _ _

theorem d8_flow_accum_pend (g : Array2D ℤ) : (d8_flow_accum g).pend = [] :=
  drainLoop_pend_empty g _ _ (by omega)

/-! ### The master invariant: helpers -/

theorem mem_donePreds {g : Array2D ℤ} {dn : List Cell} {d z : Cell} :
    d ∈ donePreds g dn z ↔ pedge g d z ∧ d ∈ dn := by
  unfold donePreds
  rw [Finset.mem_filter]
  constructor
  · rintro ⟨_, h⟩; exact h
  · rintro ⟨h1, h2⟩; exact ⟨(mem_cellsF g d).2 h1.1.1, h1, h2⟩

theorem donePreds_append_not {g : Array2D ℤ} {c₀ z : Cell}
    (hnp : ¬ pedge g c₀ z) (dn : List Cell) :
    donePreds g (dn ++ [c₀]) z = donePreds g dn z := by
  ext d
  rw [mem_donePreds, mem_donePreds]
  simp only [List.mem_append, List.mem_singleton]
  constructor
  · rintro ⟨h1, h2 | rfl⟩
    · exact ⟨h1, h2⟩
    · exact absurd h1 hnp
  · rintro ⟨h1, h2⟩; exact ⟨h1, Or.inl h2⟩

theorem donePreds_append_pedge {g : Array2D ℤ} {c₀ z : Cell}
    (hp : pedge g c₀ z) (dn : List Cell) :
    donePreds g (dn ++ [c₀]) z = insert c₀ (donePreds g dn z) := by
  ext d
  rw [Finset.mem_insert, mem_donePreds, mem_donePreds]
  simp only [List.mem_append, List.mem_singleton]
  constructor
  · rintro ⟨h1, h2 | rfl⟩
    · exact Or.inr ⟨h1, h2⟩
    · exact Or.inl rfl
  · rintro (rfl | ⟨h1, h2⟩)
    · exact ⟨hp, Or.inr rfl⟩
    · exact ⟨h1, Or.inl h2⟩

theorem pedge_from_iff {g : Array2D ℤ} {c₀ : Cell} (hc₀ : dataCell g c₀)
    (h1 : g.data c₀ ≠ NO_FLOW) (h2 : g.inGrid (target g c₀))
    (h3 : ¬ g.isNoData (target g c₀)) (z : Cell) :
    pedge g c₀ z ↔ z = target g c₀ := by
  constructor
  · intro h; exact (pedge_target h)
  · rintro rfl
    exact ⟨⟨hc₀.1, hc₀.2, h1, h2, rfl⟩, h3⟩

theorem initDep_eq_card_pedgePreds {g : Array2D ℤ} {z : Cell} (hz : dataCell g z) :
    initDep g z = (((cellsF g).filter fun d => pedge g d z).card : ℤ) := by
  unfold initDep
  have h : ((cellsF g).filter fun c => edge g c z) = (cellsF g).filter fun d => pedge g d z := by
    apply Finset.filter_congr
    intro d _
    exact edge_iff_pedge hz
  rw [h]

theorem nodup_parts {s : DState} (h : (s.done ++ s.pend).Nodup) :
    s.done.Nodup ∧ s.pend.Nodup ∧ List.Disjoint s.done s.pend :=
  List.nodup_append.1 h

/-! ### The master invariant is preserved by every drain step -/

theorem inv_step {g : Array2D ℤ} (hWF : WFDirs g) {s t : DState}
    (hInv : Inv g s) (hstep : Step g s t) : Inv g t := by
  obtain ⟨pre, c₀, post, hp, rfl⟩ := hstep
  obtain ⟨hdN, hpN, hdisj⟩ := nodup_parts hInv.nodup
  have hc₀pend : c₀ ∈ s.pend := by rw [hp]; simp
  have hc₀data : dataCell g c₀ := hInv.dataPend c₀ hc₀pend
  have hc₀notdone : c₀ ∉ s.done := fun h => hdisj h hc₀pend
  have hpreds : ∀ d, pedge g d c₀ → d ∈ s.done :=
    (hInv.entered c₀ hc₀data).1 (Or.inr hc₀pend)
  have hc₀notrest : c₀ ∉ pre ++ post := by
    have h1 : (pre ++ c₀ :: post).Nodup := hp ▸ hpN
    have h2 : (c₀ :: (pre ++ post)).Nodup := (List.perm_middle.nodup_iff).1 h1
    exact (List.nodup_cons.1 h2).1
  have hmem_rest : ∀ x, x ∈ pre ++ post ↔ x ∈ s.pend ∧ x ≠ c₀ := by
    intro x
    rw [hp]
    constructor
    · intro h
      refine ⟨?_, ?_⟩
      · rcases List.mem_append.1 h with h | h
        · exact List.mem_append.2 (Or.inl h)
        · exact List.mem_append.2 (Or.inr (List.mem_cons_of_mem _ h))
      · rintro rfl
        exact hc₀notrest h
    · rintro ⟨h, hne⟩
      rcases List.mem_append.1 h with h | h
      · exact List.mem_append.2 (Or.inl h)
      · rcases List.mem_cons.1 h with h | h
        · exact absurd h hne
        · exact List.mem_append.2 (Or.inr h)
  have hperm : ((s.done ++ [c₀]) ++ (pre ++ post)).Perm (s.done ++ s.pend) := by
    rw [hp, List.append_assoc]
    exact List.Perm.append_left s.done (@List.perm_middle _ c₀ pre post).symm
  have hbaseN : ((s.done ++ [c₀]) ++ (pre ++ post)).Nodup := hperm.nodup_iff.2 hInv.nodup
  by_cases hprop : g.data c₀ ≠ NO_FLOW ∧ g.inGrid (target g c₀) ∧ ¬ g.isNoData (target g c₀)
  · -- the dequeued cell propagates its area downstream
    obtain ⟨h1, h2, h3⟩ := hprop
    rw [processCell_prop h1 h2 h3]
    set nb := target g c₀ with hnbdef
    have hnb_data : dataCell g nb := ⟨h2, h3⟩
    have hpedge : pedge g c₀ nb := (pedge_from_iff hc₀data h1 h2 h3 nb).2 rfl
    have hne : nb ≠ c₀ := target_ne_self hWF hc₀data h1
    have hnb_notdone : nb ∉ s.done := fun hmem =>
      hc₀notdone ((hInv.entered nb hnb_data).1 (Or.inl hmem) c₀ hpedge)
    have hnb_notpend : nb ∉ s.pend := fun hmem =>
      hc₀notdone ((hInv.entered nb hnb_data).1 (Or.inr hmem) c₀ hpedge)
    have hc₀_notpred : c₀ ∉ donePreds g s.done nb := fun h =>
      hc₀notdone (mem_donePreds.1 h).2
    have hpedge_c₀_iff : ∀ z, pedge g c₀ z ↔ z = nb := pedge_from_iff hc₀data h1 h2 h3
    have hArea : ∀ z, Function.update (pushArea s c₀) nb
        (pushArea s c₀ nb + pushArea s c₀ c₀) z =
        if z = nb then s.area nb + (s.area c₀ + 1)
        else if z = c₀ then s.area c₀ + 1 else s.area z := by
      intro z
      by_cases hz : z = nb
      · subst hz
        rw [Function.update_same, if_pos rfl]
        unfold pushArea
        rw [Function.update_noteq hne, Function.update_same]
      · rw [Function.update_noteq hz, if_neg hz]
        unfold pushArea
        by_cases hz2 : z = c₀
        · subst hz2
          rw [Function.update_same, if_pos rfl]
        · rw [Function.update_noteq hz2, if_neg hz2]
    have hDep : ∀ z, Function.update s.dep nb (s.dep nb - 1) z =
        if z = nb then s.dep nb - 1 else s.dep z := by
      intro z
      by_cases hz : z = nb
      · subst hz; rw [Function.update_same, if_pos rfl]
      · rw [Function.update_noteq hz, if_neg hz]
    have hmem_pendP : ∀ x,
        (x ∈ (if s.dep nb - 1 = 0 then (pre ++ post) ++ [nb] else pre ++ post)) ↔
          (x ∈ pre ++ post ∨ (s.dep nb - 1 = 0 ∧ x = nb)) := by
      intro x
      by_cases hcond : s.dep nb - 1 = 0
      · rw [if_pos hcond]
        simp only [List.mem_append, List.mem_singleton, hcond, true_and]
      · rw [if_neg hcond]
        simp [hcond]
    have hsum_eq : ∀ z, (donePreds g s.done z).sum
        (Function.update (pushArea s c₀) nb (pushArea s c₀ nb + pushArea s c₀ c₀)) =
        (donePreds g s.done z).sum s.area := by
      intro z
      refine Finset.sum_congr rfl fun d hd => ?_
      have hd_done : d ∈ s.done := (mem_donePreds.1 hd).2
      have hd1 : d ≠ nb := fun h => hnb_notdone (h ▸ hd_done)
      have hd2 : d ≠ c₀ := fun h => hc₀notdone (h ▸ hd_done)
      rw [hArea d, if_neg hd1, if_neg hd2]
    -- when the dependency of nb reaches 0, all its upstream cells are done
    have hpush_all : s.dep nb - 1 = 0 → ∀ d, pedge g d nb → d ∈ s.done ++ [c₀] := by
      intro hcond d hd
      have hcard : ((donePreds g s.done nb).card : ℤ) = initDep g nb - 1 := by
        have := hInv.depEq nb
        omega
      have hinit := initDep_eq_card_pedgePreds hnb_data
      have hsub : insert c₀ (donePreds g s.done nb) ⊆
          (cellsF g).filter fun d => pedge g d nb := by
        intro e he
        rcases Finset.mem_insert.1 he with rfl | he
        · exact Finset.mem_filter.2 ⟨(mem_cellsF g e).2 hpedge.1.1, hpedge⟩
        · have := mem_donePreds.1 he
          exact Finset.mem_filter.2 ⟨(mem_cellsF g e).2 this.1.1.1, this.1⟩
      have hcardle : (((cellsF g).filter fun d => pedge g d nb).card : ℤ) ≤
          ((insert c₀ (donePreds g s.done nb)).card : ℤ) := by
        rw [Finset.card_insert_of_not_mem hc₀_notpred]
        push_cast
        omega
      have heq := Finset.eq_of_subset_of_card_le hsub (by exact_mod_cast hcardle)
      have hdmem : d ∈ (cellsF g).filter fun d => pedge g d nb :=
        Finset.mem_filter.2 ⟨(mem_cellsF g d).2 hd.1.1, hd⟩
      rw [← heq] at hdmem
      rcases Finset.mem_insert.1 hdmem with rfl | hdmem
      · simp
      · exact List.mem_append.2 (Or.inl (mem_donePreds.1 hdmem).2)
    have haccC₀ : securable g c₀ :=
      Acc.intro c₀ fun d hd => hInv.acc d (Or.inl (hpreds d hd))
    refine ⟨?_, ?_, ?_, ?_, ?_, ?_, ?_⟩
    · -- dataDone
      intro c hc
      rcases List.mem_append.1 hc with h | h
      · exact hInv.dataDone c h
      · rw [List.mem_singleton] at h
        exact h ▸ hc₀data
    · -- dataPend
      intro c hc
      rcases (hmem_pendP c).1 hc with h | ⟨_, rfl⟩
      · exact hInv.dataPend c ((hmem_rest c).1 h).1
      · exact hnb_data
    · -- nodup
      show ((s.done ++ [c₀]) ++
        (if s.dep nb - 1 = 0 then (pre ++ post) ++ [nb] else pre ++ post)).Nodup
      by_cases hcond : s.dep nb - 1 = 0
      · rw [if_pos hcond, ← List.append_assoc]
        refine List.Nodup.append hbaseN (List.nodup_singleton nb) ?_
        intro x hx hx2
        rw [List.mem_singleton] at hx2
        subst hx2
        rcases List.mem_append.1 hx with h | h
        · rcases List.mem_append.1 h with h | h
          · exact hnb_notdone h
          · rw [List.mem_singleton] at h
            exact hne h
        · exact hnb_notpend ((hmem_rest nb).1 h).1
      · rw [if_neg hcond]
        exact hbaseN
    · -- depEq
      intro z
      show Function.update s.dep nb (s.dep nb - 1) z =
        initDep g z - ((donePreds g (s.done ++ [c₀]) z).card : ℤ)
      rw [hDep z]
      by_cases hz : z = nb
      · subst hz
        rw [if_pos rfl, donePreds_append_pedge hpedge,
          Finset.card_insert_of_not_mem hc₀_notpred]
        have := hInv.depEq nb
        push_cast
        omega
      · rw [if_neg hz,
          donePreds_append_not (fun h => hz ((hpedge_c₀_iff z).1 h))]
        exact hInv.depEq z
    · -- entered
      intro c hcdata
      have base := hInv.entered c hcdata
      have hdoneP : ∀ x, x ∈ s.done ++ [c₀] ↔ x ∈ s.done ∨ x = c₀ := by
        intro x; simp
      show (c ∈ s.done ++ [c₀] ∨
          c ∈ (if s.dep nb - 1 = 0 then (pre ++ post) ++ [nb] else pre ++ post)) ↔
        (∀ d, pedge g d c → d ∈ s.done ++ [c₀])
      by_cases hc : c = c₀
      · constructor
        · intro _ d hd
          exact (hdoneP d).2 (Or.inl (hpreds d (hc ▸ hd)))
        · intro _
          exact Or.inl ((hdoneP c).2 (Or.inr hc))
      · by_cases hcnb : c = nb
        · subst hcnb
          by_cases hcond : s.dep nb - 1 = 0
          · constructor
            · intro _ d hd
              exact hpush_all hcond d hd
            · intro _
              exact Or.inr ((hmem_pendP nb).2 (Or.inr ⟨hcond, rfl⟩))
          · constructor
            · intro hmem
              rcases hmem with h | h
              · rcases (hdoneP nb).1 h with h | h
                · exact absurd h hnb_notdone
                · exact absurd h hne
              · rcases (hmem_pendP nb).1 h with h | ⟨h, _⟩
                · exact absurd ((hmem_rest nb).1 h).1 hnb_notpend
                · exact absurd h hcond
            · intro hall
              exfalso
              have hsub1 : ((cellsF g).filter fun d => pedge g d nb) ⊆
                  insert c₀ (donePreds g s.done nb) := by
                intro e he
                have hpe := (Finset.mem_filter.1 he).2
                rcases (hdoneP e).1 (hall e hpe) with h | rfl
                · exact Finset.mem_insert.2 (Or.inr (mem_donePreds.2 ⟨hpe, h⟩))
                · exact Finset.mem_insert.2 (Or.inl rfl)
              have hsub2 : insert c₀ (donePreds g s.done nb) ⊆
                  (cellsF g).filter fun d => pedge g d nb := by
                intro e he
                rcases Finset.mem_insert.1 he with rfl | he
                · exact Finset.mem_filter.2 ⟨(mem_cellsF g e).2 hpedge.1.1, hpedge⟩
                · have := mem_donePreds.1 he
                  exact Finset.mem_filter.2 ⟨(mem_cellsF g e).2 this.1.1.1, this.1⟩
              have heq : insert c₀ (donePreds g s.done nb) =
                  (cellsF g).filter fun d => pedge g d nb :=
                Finset.Subset.antisymm hsub2 hsub1
              have hcards : ((donePreds g s.done nb).card : ℤ) + 1 = initDep g nb := by
                rw [initDep_eq_card_pedgePreds hcdata, ← heq,
                  Finset.card_insert_of_not_mem hc₀_notpred]
                push_cast
                ring
              have := hInv.depEq nb
              omega
        · -- a cell unrelated to this step
          have hlhs : (c ∈ s.done ++ [c₀] ∨
              c ∈ (if s.dep nb - 1 = 0 then (pre ++ post) ++ [nb] else pre ++ post)) ↔
              (c ∈ s.done ∨ c ∈ s.pend) := by
            constructor
            · intro h
              rcases h with h | h
              · rcases (hdoneP c).1 h with h | h
                · exact Or.inl h
                · exact absurd h hc
              · rcases (hmem_pendP c).1 h with h | ⟨_, h⟩
                · exact Or.inr ((hmem_rest c).1 h).1
                · exact absurd h hcnb
            · intro h
              rcases h with h | h
              · exact Or.inl ((hdoneP c).2 (Or.inl h))
              · by_cases hcc : c = c₀
                · exact absurd hcc hc
                · exact Or.inr ((hmem_pendP c).2 (Or.inl ((hmem_rest c).2 ⟨h, hcc⟩)))
          have hrhs : (∀ d, pedge g d c → d ∈ s.done ++ [c₀]) ↔
              (∀ d, pedge g d c → d ∈ s.done) := by
            constructor
            · intro h d hd
              rcases (hdoneP d).1 (h d hd) with h2 | rfl
              · exact h2
              · exact absurd ((hpedge_c₀_iff c).1 hd) hcnb
            · intro h d hd
              exact (hdoneP d).2 (Or.inl (h d hd))
          rw [hlhs, hrhs]
          exact base
    · -- acc
      intro c hc
      rcases hc with h | h
      · rcases List.mem_append.1 h with h | h
        · exact hInv.acc c (Or.inl h)
        · rw [List.mem_singleton] at h
          exact h ▸ haccC₀
      · rcases (hmem_pendP c).1 h with h | ⟨hcond, rfl⟩
        · exact hInv.acc c (Or.inr ((hmem_rest c).1 h).1)
        · refine Acc.intro nb fun d hd => ?_
          rcases List.mem_append.1 (hpush_all hcond d hd) with h | h
          · exact hInv.acc d (Or.inl h)
          · rw [List.mem_singleton] at h
            exact h ▸ haccC₀
    · -- areaEq
      intro z
      show Function.update (pushArea s c₀) nb
          (pushArea s c₀ nb + pushArea s c₀ c₀) z =
        initArea g z + (if z ∈ s.done ++ [c₀] then 1 else 0) +
          (donePreds g (s.done ++ [c₀]) z).sum
            (Function.update (pushArea s c₀) nb (pushArea s c₀ nb + pushArea s c₀ c₀))
      rw [hArea z]
      by_cases hz : z = nb
      · subst hz
        rw [if_pos rfl, donePreds_append_pedge hpedge,
          Finset.sum_insert hc₀_notpred, hsum_eq nb, hArea c₀, if_neg (Ne.symm hne),
          if_pos rfl]
        have hbase := hInv.areaEq nb
        rw [if_neg hnb_notdone] at hbase
        have hznotdoneP : nb ∉ s.done ++ [c₀] := by
          intro h
          rcases List.mem_append.1 h with h | h
          · exact hnb_notdone h
          · rw [List.mem_singleton] at h
            exact hne h
        rw [if_neg hznotdoneP]
        omega
      · rw [if_neg hz,
          donePreds_append_not (fun h => hz ((hpedge_c₀_iff z).1 h)), hsum_eq z]
        by_cases hz2 : z = c₀
        · rw [hz2, if_pos rfl]
          have hbase := hInv.areaEq c₀
          rw [if_neg hc₀notdone] at hbase
          rw [if_pos (List.mem_append.2 (Or.inr (List.mem_singleton.2 rfl)))]
          omega
        · rw [if_neg hz2]
          have hbase := hInv.areaEq z
          by_cases hzd : z ∈ s.done
          · rw [if_pos hzd] at hbase
            rw [if_pos (List.mem_append.2 (Or.inl hzd))]
            exact hbase
          · rw [if_neg hzd] at hbase
            rw [if_neg (by
              intro h
              rcases List.mem_append.1 h with h | h
              · exact hzd h
              · rw [List.mem_singleton] at h
                exact hz2 h)]
            exact hbase
  · -- the dequeued cell has nothing to propagate to
    have hnp : g.data c₀ = NO_FLOW ∨ ¬ g.inGrid (target g c₀) ∨
        g.isNoData (target g c₀) := by tauto
    rw [processCell_noprop hnp]
    have hnoout : ∀ z, ¬ pedge g c₀ z := by
      intro z hz
      rcases hnp with h | h | h
      · exact hz.1.2.2.1 h
      · exact h hz.1.2.2.2.1
      · exact (hz.1.2.2.2.2 ▸ hz.2) h
    refine ⟨?_, ?_, ?_, ?_, ?_, ?_, ?_⟩
    · -- dataDone
      intro c hc
      rcases List.mem_append.1 hc with h | h
      · exact hInv.dataDone c h
      · rw [List.mem_singleton] at h
        exact h ▸ hc₀data
    · -- dataPend
      intro c hc
      exact hInv.dataPend c ((hmem_rest c).1 hc).1
    · -- nodup
      exact hbaseN
    · -- depEq
      intro z
      show s.dep z = initDep g z - ((donePreds g (s.done ++ [c₀]) z).card : ℤ)
      rw [donePreds_append_not (hnoout z)]
      exact hInv.depEq z
    · -- entered
      intro c hcdata
      have base := hInv.entered c hcdata
      have hdoneP : ∀ x, x ∈ s.done ++ [c₀] ↔ x ∈ s.done ∨ x = c₀ := by
        intro x; simp
      show (c ∈ s.done ++ [c₀] ∨ c ∈ pre ++ post) ↔
        (∀ d, pedge g d c → d ∈ s.done ++ [c₀])
      constructor
      · intro h d hd
        have hin : c ∈ s.done ∨ c ∈ s.pend := by
          rcases h with h | h
          · rcases (hdoneP c).1 h with h | rfl
            · exact Or.inl h
            · exact Or.inr hc₀pend
          · exact Or.inr ((hmem_rest c).1 h).1
        exact (hdoneP d).2 (Or.inl (base.1 hin d hd))
      · intro h
        have h2 : ∀ d, pedge g d c → d ∈ s.done := by
          intro d hd
          rcases (hdoneP d).1 (h d hd) with h1 | rfl
          · exact h1
          · exact absurd hd (hnoout c)
        rcases base.2 h2 with h1 | h1
        · exact Or.inl ((hdoneP c).2 (Or.inl h1))
        · by_cases hc : c = c₀
          · exact Or.inl ((hdoneP c).2 (Or.inr hc))
          · exact Or.inr ((hmem_rest c).2 ⟨h1, hc⟩)
    · -- acc
      intro c hc
      rcases hc with h | h
      · rcases List.mem_append.1 h with h | h
        · exact hInv.acc c (Or.inl h)
        · rw [List.mem_singleton] at h
          exact hInv.acc c (h ▸ Or.inr hc₀pend)
      · exact hInv.acc c (Or.inr ((hmem_rest c).1 h).1)
    · -- areaEq
      intro z
      show pushArea s c₀ z = initArea g z + (if z ∈ s.done ++ [c₀] then 1 else 0) +
        (donePreds g (s.done ++ [c₀]) z).sum (pushArea s c₀)
      rw [donePreds_append_not (hnoout z)]
      have hsum_eq : (donePreds g s.done z).sum (pushArea s c₀) =
          (donePreds g s.done z).sum s.area := by
        refine Finset.sum_congr rfl fun d hd => ?_
        have hd_done : d ∈ s.done := (mem_donePreds.1 hd).2
        have hd2 : d ≠ c₀ := fun h => hc₀notdone (h ▸ hd_done)
        unfold pushArea
        rw [Function.update_noteq hd2]
      rw [hsum_eq]
      by_cases hz : z = c₀
      · rw [hz]
        unfold pushArea
        rw [Function.update_same]
        have hbase := hInv.areaEq c₀
        rw [if_neg hc₀notdone] at hbase
        rw [if_pos (List.mem_append.2 (Or.inr (List.mem_singleton.2 rfl)))]
        omega
      · unfold pushArea
        rw [Function.update_noteq hz]
        have hbase := hInv.areaEq z
        by_cases hzd : z ∈ s.done
        · rw [if_pos hzd] at hbase
          rw [if_pos (List.mem_append.2 (Or.inl hzd))]
          exact hbase
        · rw [if_neg hzd] at hbase
          rw [if_neg (by
            intro h
            rcases List.mem_append.1 h with h | h
            · exact hzd h
            · rw [List.mem_singleton] at h
              exact hz h)]
          exact hbase

/-! ### The invariant holds initially and along every run -/

theorem donePreds_nil (g : Array2D ℤ) (c : Cell) : donePreds g [] c = ∅ := by
  ext d
  simp [mem_donePreds]

theorem initState_done (g : Array2D ℤ) : (initState g).done = [] := rfl

theorem initDep_zero_iff {g : Array2D ℤ} {c : Cell} :
    initDep g c = 0 ↔ ∀ d, ¬ edge g d c := by
  unfold initDep
  rw [Nat.cast_eq_zero, Finset.card_eq_zero, Finset.filter_eq_empty_iff]
  constructor
  · intro h d hd
    exact h ((mem_cellsF g d).2 hd.1) hd
  · intro h d _
    exact h d

theorem mem_sources {g : Array2D ℤ} {c : Cell} :
    c ∈ (initState g).pend ↔ g.inGrid c ∧ initDep g c = 0 ∧ ¬ g.isNoData c := by
  show c ∈ (cellsRowMajor g).filter _ ↔ _
  rw [List.mem_filter, mem_cellsRowMajor]
  simp [phase1_snd]

theorem inv_init (g : Array2D ℤ) : Inv g (initState g) := by
  refine ⟨?_, ?_, ?_, ?_, ?_, ?_, ?_⟩
  · intro c hc
    cases hc
  · intro c hc
    obtain ⟨h1, h2, h3⟩ := mem_sources.1 hc
    exact ⟨h1, h3⟩
  · show (([] : List Cell) ++ (cellsRowMajor g).filter _).Nodup
    rw [List.nil_append]
    exact (nodup_cellsRowMajor g).filter _
  · intro c
    show (phase1 g).2 c = _
    rw [phase1_snd, initState_done, donePreds_nil]
    simp
  · intro c hc
    show (c ∈ ([] : List Cell) ∨ c ∈ (initState g).pend) ↔
      ∀ d, pedge g d c → d ∈ ([] : List Cell)
    constructor
    · intro h d hd
      rcases h with h | h
      · cases h
      · obtain ⟨_, h0, _⟩ := mem_sources.1 h
        exact absurd hd.1 (initDep_zero_iff.1 h0 d)
    · intro h
      refine Or.inr (mem_sources.2 ⟨hc.1, ?_, hc.2⟩)
      rw [initDep_zero_iff]
      intro d hd
      cases h d ((edge_iff_pedge hc).1 hd)
  · intro c hc
    rcases hc with h | h
    · cases h
    · obtain ⟨_, h0, _⟩ := mem_sources.1 h
      refine Acc.intro c fun d hd => ?_
      exact absurd hd.1 (initDep_zero_iff.1 h0 d)
  · intro c
    show (phase1 g).1 c = _
    rw [phase1_fst, initState_done, donePreds_nil]
    have hnil : c ∉ ([] : List Cell) := List.not_mem_nil c
    rw [if_neg hnil]
    simp

theorem inv_run {g : Array2D ℤ} (hWF : WFDirs g) {s t : DState} (h : Inv g s)
    (hr : Run g s t) : Inv g t := by
  induction hr with
  | refl => exact h
  | tail _ hbc ih => exact inv_step hWF ih hbc

theorem inv_d8_flow_accum {g : Array2D ℤ} (hWF : WFDirs g) : Inv g (d8_flow_accum g) :=
  inv_run hWF (inv_init g) (d8_flow_accum_run g)

/-! ### The final state of any maximal run -/

theorem securable_mem_done {g : Array2D ℤ} {s : DState} (hInv : Inv g s)
    (hmax : s.pend = []) :
    ∀ c, securable g c → dataCell g c → c ∈ s.done := by
  intro c hacc
  induction hacc with
  | intro c hpred IH =>
    intro hc
    have hall : ∀ d, pedge g d c → d ∈ s.done := fun d hd =>
      IH d hd (pedge_dataCell_left hd)
    rcases (hInv.entered c hc).2 hall with h | h
    · exact h
    · rw [hmax] at h
      cases h

theorem donePreds_eq_allPreds {g : Array2D ℤ} {s : DState} {c : Cell}
    (hall : ∀ d, pedge g d c → d ∈ s.done) :
    donePreds g s.done c = (cellsF g).filter fun d => pedge g d c := by
  ext d
  rw [mem_donePreds, Finset.mem_filter]
  constructor
  · rintro ⟨h1, _⟩
    exact ⟨(mem_cellsF g d).2 h1.1.1, h1⟩
  · rintro ⟨_, h1⟩
    exact ⟨h1, hall d h1⟩

theorem area_done_eq {g : Array2D ℤ} {s : DState} (hInv : Inv g s) {c : Cell}
    (hc : c ∈ s.done) :
    s.area c = 1 + ((cellsF g).filter fun d => pedge g d c).sum s.area := by
  have hdata : dataCell g c := hInv.dataDone c hc
  have hall : ∀ d, pedge g d c → d ∈ s.done :=
    (hInv.entered c hdata).1 (Or.inl hc)
  have harea := hInv.areaEq c
  rw [if_pos hc, donePreds_eq_allPreds hall] at harea
  rw [harea]
  have hinit : initArea g c = 0 := by
    unfold initArea
    rw [if_neg]
    rintro ⟨_, h⟩
    exact hdata.2 h
  rw [hinit]
  ring

theorem area_undone_eq {g : Array2D ℤ} {s : DState} (hInv : Inv g s) {c : Cell}
    (hdata : dataCell g c) (hnd : c ∉ s.done) :
    s.area c = (donePreds g s.done c).sum s.area := by
  have harea := hInv.areaEq c
  rw [if_neg hnd] at harea
  rw [harea]
  have hinit : initArea g c = 0 := by
    unfold initArea
    rw [if_neg]
    rintro ⟨_, h⟩
    exact hdata.2 h
  rw [hinit]
  ring

theorem area_nondata {g : Array2D ℤ} {s : DState} (hInv : Inv g s) {c : Cell}
    (hc : ¬ dataCell g c) : s.area c = initArea g c := by
  have h1 : c ∉ s.done := fun h => hc (hInv.dataDone c h)
  have h2 : donePreds g s.done c = ∅ := by
    ext d
    simp only [mem_donePreds, Finset.not_mem_empty, iff_false]
    rintro ⟨hd, _⟩
    exact hc (pedge_dataCell_right hd)
  rw [hInv.areaEq c, if_neg h1, h2]
  simp

theorem area_nodata_cell {g : Array2D ℤ} {s : DState} (hInv : Inv g s) {c : Cell}
    (hin : g.inGrid c) (hnd : g.isNoData c) : s.area c = -1 := by
  rw [area_nondata hInv (fun h => h.2 hnd), initArea, if_pos ⟨hin, hnd⟩]

/-! ### Order-independence: any two maximal runs give the same area raster -/

theorem area_unique {g : Array2D ℤ} {s t : DState}
    (hs : Inv g s) (ht : Inv g t) (hsmax : s.pend = []) (htmax : t.pend = []) :
    ∀ c, s.area c = t.area c := by
  have hdone : ∀ c, c ∈ s.done ↔ c ∈ t.done := by
    intro c
    constructor
    · intro h
      exact securable_mem_done ht htmax c (hs.acc c (Or.inl h)) (hs.dataDone c h)
    · intro h
      exact securable_mem_done hs hsmax c (ht.acc c (Or.inl h)) (ht.dataDone c h)
  have main : ∀ c, securable g c → dataCell g c → s.area c = t.area c := by
    intro c hacc
    induction hacc with
    | intro c hpred IH =>
      intro hc
      have hsdone : c ∈ s.done :=
        securable_mem_done hs hsmax c (Acc.intro c hpred) hc
      have htdone : c ∈ t.done :=
        securable_mem_done ht htmax c (Acc.intro c hpred) hc
      rw [area_done_eq hs hsdone, area_done_eq ht htdone]
      congr 1
      refine Finset.sum_congr rfl fun d hd => ?_
      have hpd := (Finset.mem_filter.1 hd).2
      exact IH d hpd (pedge_dataCell_left hpd)
  intro c
  by_cases hcdata : dataCell g c
  · by_cases hsec : securable g c
    · exact main c hsec hcdata
    · have hnds : c ∉ s.done := fun h => hsec (hs.acc c (Or.inl h))
      have hndt : c ∉ t.done := fun h => hsec (ht.acc c (Or.inl h))
      rw [area_undone_eq hs hcdata hnds, area_undone_eq ht hcdata hndt]
      have hset : donePreds g s.done c = donePreds g t.done c := by
        ext d
        rw [mem_donePreds, mem_donePreds, hdone d]
      rw [hset]
      refine Finset.sum_congr rfl fun d hd => ?_
      obtain ⟨hpd, hdt⟩ := mem_donePreds.1 hd
      exact main d (ht.acc d (Or.inl hdt)) (pedge_dataCell_left hpd)
  · rw [area_nondata hs hcdata, area_nondata ht hcdata]

/-! ### Acyclicity, well-foundedness, and reachability counting -/

theorem acc_all_of_no_cycle (g : Array2D ℤ) (r : Cell → Cell → Prop)
    (hdom : ∀ a b, r a b → g.inGrid a)
    (hcyc : ∀ c, ¬ Relation.TransGen r c c) : ∀ c, Acc r c := by
  have hfin : Finite {c : Cell // g.inGrid c} := by
    have hset : (setOf fun c : Cell => g.inGrid c).Finite :=
      Set.Finite.ofFinset (cellsF g) fun x => by rw [mem_cellsF]; rfl
    exact hset.to_subtype
  let r' : {c : Cell // g.inGrid c} → {c : Cell // g.inGrid c} → Prop :=
    fun a b => r a.1 b.1
  have hirr : ∀ x, ¬ Relation.TransGen r' x x := by
    intro x hx
    exact hcyc x.1 (Relation.TransGen.lift
      (fun a : {c : Cell // g.inGrid c} => a.1) (fun a b h => h) hx)
  haveI : IsIrrefl {c : Cell // g.inGrid c} (Relation.TransGen r') := ⟨hirr⟩
  have hwf : WellFounded (Relation.TransGen r') :=
    Finite.wellFounded_of_trans_of_irrefl _
  have hwf' : WellFounded r' :=
    Subrelation.wf (fun h => Relation.TransGen.single h) hwf
  have key : ∀ x : {c : Cell // g.inGrid c}, Acc r' x → Acc r x.1 := by
    intro x hx
    induction hx with
    | intro x hpred IH =>
      refine Acc.intro x.1 fun y hy => ?_
      exact IH ⟨y, hdom y x.1 hy⟩ hy
  intro c
  refine Acc.intro c fun y hy => ?_
  exact key ⟨y, hdom y c hy⟩ (hwf'.apply _)

theorem securable_of_acyclic {g : Array2D ℤ} (hA : Acyclic g) :
    ∀ c, securable g c :=
  acc_all_of_no_cycle g (fun d z => pedge g d z) (fun a b h => h.1.1) hA

theorem downAcc_of_acyclic {g : Array2D ℤ} (hA : Acyclic g) :
    ∀ c, Acc (fun z d => pedge g d z) c := by
  refine acc_all_of_no_cycle g (fun z d => pedge g d z) ?_ ?_
  · intro a b h
    exact (pedge_dataCell_right h).1
  · intro c hc
    exact hA c (Relation.transGen_swap.1 hc)

theorem reach_total {g : Array2D ℤ} {e d₁ d₂ : Cell} (h₁ : reaches g e d₁)
    (h₂ : reaches g e d₂) : reaches g d₁ d₂ ∨ reaches g d₂ d₁ := by
  unfold reaches at h₁ h₂ ⊢
  induction h₁ using Relation.ReflTransGen.head_induction_on generalizing d₂ with
  | refl => exact Or.inl h₂
  | head hac hcd IH =>
    rcases Relation.ReflTransGen.cases_head h₂ with rfl | ⟨y, hay, hyd⟩
    · exact Or.inr (Relation.ReflTransGen.head hac hcd)
    · have : y = _ := pedge_unique hay hac
      exact IH (this ▸ hyd)

theorem sink_no_step {g : Array2D ℤ} {s x : Cell} (hs : isSink g s) :
    ¬ pedge g s x := by
  rintro ⟨⟨_, _, h1, h2, h3⟩, h4⟩
  rcases hs.2 with h | h | h
  · exact h1 h
  · exact h h2
  · exact (h3 ▸ h4) h

theorem reach_from_sink {g : Array2D ℤ} {s x : Cell} (hs : isSink g s)
    (h : reaches g s x) : x = s := by
  rcases Relation.ReflTransGen.cases_head h with rfl | ⟨y, hy, _⟩
  · rfl
  · exact absurd hy (sink_no_step hs)

theorem exists_sink {g : Array2D ℤ} (hA : Acyclic g) :
    ∀ e, dataCell g e → ∃ s, reaches g e s ∧ isSink g s := by
  intro e
  have hacc := downAcc_of_acyclic hA e
  induction hacc with
  | intro e hpred IH =>
    intro he
    by_cases hs : isSink g e
    · exact ⟨e, Relation.ReflTransGen.refl, hs⟩
    · have hns : ¬ (g.data e = NO_FLOW ∨ ¬ g.inGrid (target g e) ∨
          g.isNoData (target g e)) := fun h => hs ⟨he, h⟩
      push_neg at hns
      obtain ⟨h1, h2, h3⟩ := hns
      have hp : pedge g e (target g e) := ⟨⟨he.1, he.2, h1, h2, rfl⟩, h3⟩
      obtain ⟨s, hreach, hsink⟩ := IH (target g e) hp (pedge_dataCell_right hp)
      exact ⟨s, Relation.ReflTransGen.head hp hreach, hsink⟩

theorem no_reach_between_preds {g : Array2D ℤ} (hA : Acyclic g) {d₁ d₂ c : Cell}
    (h₁ : pedge g d₁ c) (h₂ : pedge g d₂ c) (hne : d₁ ≠ d₂)
    (hr : reaches g d₁ d₂) : False := by
  have ht : Relation.TransGen (pedge g) d₁ d₂ :=
    (Relation.reflTransGen_iff_eq_or_transGen.1 hr).resolve_left fun h => hne h.symm
  obtain ⟨y, hy, hyd⟩ := Relation.TransGen.head'_iff.1 ht
  have hyc : y = c := pedge_unique hy h₁
  subst hyc
  exact hA y (Relation.TransGen.tail' hyd h₂)

open Classical in
theorem upslopeCount_rec {g : Array2D ℤ} (hA : Acyclic g) {c : Cell}
    (hc : dataCell g c) :
    upslopeCount g c =
      1 + ((cellsF g).filter fun d => pedge g d c).sum fun d => upslopeCount g d := by
  classical
  have hset : ((cellsF g).filter fun e => dataCell g e ∧ reaches g e c) =
      insert c (((cellsF g).filter fun d => pedge g d c).biUnion
        fun d => (cellsF g).filter fun e => dataCell g e ∧ reaches g e d) := by
    ext e
    simp only [Finset.mem_filter, Finset.mem_insert, Finset.mem_biUnion]
    constructor
    · rintro ⟨hcf, hdata, hreach⟩
      by_cases hec : e = c
      · exact Or.inl hec
      · have ht : Relation.TransGen (pedge g) e c :=
          (Relation.reflTransGen_iff_eq_or_transGen.1 hreach).resolve_left
            fun h => hec h.symm
        obtain ⟨d, hed, hdc⟩ := Relation.TransGen.tail'_iff.1 ht
        exact Or.inr ⟨d, ⟨(mem_cellsF g d).2 hdc.1.1, hdc⟩, hcf, hdata, hed⟩
    · rintro (rfl | ⟨d, ⟨hdf, hdp⟩, hef, hedata, hereach⟩)
      · exact ⟨(mem_cellsF g e).2 hc.1, hc, Relation.ReflTransGen.refl⟩
      · exact ⟨hef, hedata, hereach.tail hdp⟩
  have hnotmem : c ∉ ((cellsF g).filter fun d => pedge g d c).biUnion
      fun d => (cellsF g).filter fun e => dataCell g e ∧ reaches g e d := by
    intro hmem
    obtain ⟨d, hd, hcd⟩ := Finset.mem_biUnion.1 hmem
    have hdc := (Finset.mem_filter.1 hd).2
    have hreach := (Finset.mem_filter.1 hcd).2.2
    exact hA c (Relation.TransGen.tail' hreach hdc)
  have hdisj : ∀ d₁ ∈ (cellsF g).filter fun d => pedge g d c,
      ∀ d₂ ∈ (cellsF g).filter fun d => pedge g d c, d₁ ≠ d₂ →
        Disjoint ((cellsF g).filter fun e => dataCell g e ∧ reaches g e d₁)
          ((cellsF g).filter fun e => dataCell g e ∧ reaches g e d₂) := by
    intro d₁ hd₁ d₂ hd₂ hne
    rw [Finset.disjoint_left]
    intro e he₁ he₂
    have h₁ := (Finset.mem_filter.1 he₁).2.2
    have h₂ := (Finset.mem_filter.1 he₂).2.2
    have hp₁ := (Finset.mem_filter.1 hd₁).2
    have hp₂ := (Finset.mem_filter.1 hd₂).2
    rcases reach_total h₁ h₂ with h | h
    · exact no_reach_between_preds hA hp₁ hp₂ hne h
    · exact no_reach_between_preds hA hp₂ hp₁ hne.symm h
  rw [upslopeCount, hset, Finset.card_insert_of_not_mem hnotmem,
    Finset.card_biUnion hdisj]
  rw [Nat.add_comm]
  congr 1

/-! ### Area correctness under acyclicity -/

theorem acyclic_of_rank {g : Array2D ℤ} (rank : Cell → ℕ)
    (h : ∀ a ∈ cellsRowMajor g, ∀ b ∈ cellsRowMajor g, pedge g a b → rank a < rank b) :
    Acyclic g := by
  have h' : ∀ {a b}, pedge g a b → rank a < rank b := by
    intro a b hab
    exact h a ((mem_cellsRowMajor g a).2 hab.1.1) b
      ((mem_cellsRowMajor g b).2 (pedge_dataCell_right hab).1) hab
  intro c hc
  have hmono : ∀ {x y}, Relation.TransGen (pedge g) x y → rank x < rank y := by
    intro x y hxy
    induction hxy with
    | single hs => exact h' hs
    | tail _ hs ih => exact lt_trans ih (h' hs)
  exact lt_irrefl _ (hmono hc)

theorem area_eq_upslopeCount {g : Array2D ℤ} {s : DState} (hA : Acyclic g)
    (hInv : Inv g s) (hmax : s.pend = []) :
    ∀ c, dataCell g c → s.area c = (upslopeCount g c : ℤ) := by
  intro c
  have hacc := securable_of_acyclic hA c
  induction hacc with
  | intro c hpred IH =>
    intro hc
    have hdone : c ∈ s.done :=
      securable_mem_done hInv hmax c (Acc.intro c hpred) hc
    rw [area_done_eq hInv hdone, upslopeCount_rec hA hc]
    push_cast
    congr 1
    refine Finset.sum_congr rfl fun d hd => ?_
    have hpd := (Finset.mem_filter.1 hd).2
    exact IH d hpd (pedge_dataCell_left hpd)

open Classical in
theorem sum_upslopeCount_sinks {g : Array2D ℤ} (hA : Acyclic g) :
    (((cellsF g).filter fun c => isSink g c).sum fun c => upslopeCount g c) =
      numDataCells g := by
  classical
  have hset : ((cellsF g).filter fun c => dataCell g c) =
      ((cellsF g).filter fun c => isSink g c).biUnion
        fun d => (cellsF g).filter fun e => dataCell g e ∧ reaches g e d := by
    ext e
    simp only [Finset.mem_filter, Finset.mem_biUnion]
    constructor
    · rintro ⟨hcf, hdata⟩
      obtain ⟨d, hreach, hsink⟩ := exists_sink hA e hdata
      exact ⟨d, ⟨(mem_cellsF g d).2 hsink.1.1, hsink⟩, hcf, hdata, hreach⟩
    · rintro ⟨d, _, hef, hedata, _⟩
      exact ⟨hef, hedata⟩
  have hdisj : ∀ d₁ ∈ (cellsF g).filter fun c => isSink g c,
      ∀ d₂ ∈ (cellsF g).filter fun c => isSink g c, d₁ ≠ d₂ →
        Disjoint ((cellsF g).filter fun e => dataCell g e ∧ reaches g e d₁)
          ((cellsF g).filter fun e => dataCell g e ∧ reaches g e d₂) := by
    intro d₁ hd₁ d₂ hd₂ hne
    rw [Finset.disjoint_left]
    intro e he₁ he₂
    have h₁ := (Finset.mem_filter.1 he₁).2.2
    have h₂ := (Finset.mem_filter.1 he₂).2.2
    have hs₁ := (Finset.mem_filter.1 hd₁).2
    have hs₂ := (Finset.mem_filter.1 hd₂).2
    rcases reach_total h₁ h₂ with h | h
    · exact hne (reach_from_sink hs₁ h).symm
    · exact hne (reach_from_sink hs₂ h)
  rw [numDataCells, hset, Finset.card_biUnion hdisj]
  rfl

theorem sum_area_sinks {g : Array2D ℤ} {s : DState} (hA : Acyclic g)
    (hInv : Inv g s) (hmax : s.pend = []) :
    (((cellsF g).filter fun c => isSink g c).sum s.area) = (numDataCells g : ℤ) := by
  classical
  have h1 : (((cellsF g).filter fun c => isSink g c).sum s.area) =
      ((cellsF g).filter fun c => isSink g c).sum fun c => (upslopeCount g c : ℤ) := by
    refine Finset.sum_congr rfl fun c hc => ?_
    exact area_eq_upslopeCount hA hInv hmax c (Finset.mem_filter.1 hc).2.1
  rw [h1, ← Nat.cast_sum, sum_upslopeCount_sinks hA]

/-! ### Claims C1, C2, C3, C4, C10 about `d8_flow_accum` -/

/-- C1: for every well-formed direction raster whose flow graph on data cells
is acyclic, after `d8_flow_accum` every data cell `c` has
`area c = upslopeCount c` (the number of data cells whose flow path includes
`c`, counting `c` itself), and every in-grid nodata cell has
`area = -1` (the nodata sentinel of the area raster); in particular on the
1×5 raster `[3, 3, 3, 3, NO_FLOW]` (direction 3 = east) the output area is
`[1, 2, 3, 4, 5]`. -/
theorem C1_flow_accum_area :
    (∀ g : Array2D ℤ, WFDirs g → Acyclic g →
      (∀ c, dataCell g c → (d8_flow_accum g).area c = (upslopeCount g c : ℤ)) ∧
      (∀ c, g.inGrid c → g.isNoData c → (d8_flow_accum g).area c = -1)) ∧
    ((d8_flow_accum chain5).area (0, 0) = 1 ∧ (d8_flow_accum chain5).area (1, 0) = 2 ∧
      (d8_flow_accum chain5).area (2, 0) = 3 ∧ (d8_flow_accum chain5).area (3, 0) = 4 ∧
      (d8_flow_accum chain5).area (4, 0) = 5) := by
  constructor
  · intro g hWF hA
    constructor
    · exact area_eq_upslopeCount hA (inv_d8_flow_accum hWF) (d8_flow_accum_pend g)
    · intro c hin hnd
      exact area_nodata_cell (inv_d8_flow_accum hWF) hin hnd
  · exact by decide

/-- Witness for C1 at the 1×5 chain raster: the hypotheses hold (the raster
is well-formed and the ranking by `x` shows it acyclic), and the theorem then
gives the area of the terminal cell. -/
theorem C1_flow_accum_area_witness :
    WFDirs chain5 ∧ (d8_flow_accum chain5).area (4, 0) = (upslopeCount chain5 (4, 0) : ℤ) := by
  have hA : Acyclic chain5 := acyclic_of_rank (fun c => c.1.toNat) (by decide)
  exact ⟨by decide, (C1_flow_accum_area.1 chain5 (by decide) hA).1 (4, 0) (by decide)⟩

/-- C2: on the two-cell cycle raster the diagnostic loop count reported by
`d8_flow_accum` is `8 · countval(-1) = 0`, while the number of data cells
with dependency strictly greater than 0 is 2 — the code does not compute
the count the specification describes. -/
theorem C2_loops_diagnostic :
    d8_flow_accum_loops cyc2 = 0 ∧
      (((cellsF cyc2).filter fun c =>
        dataCell cyc2 c ∧ 0 < (d8_flow_accum cyc2).dep c).card = 2) ∧
      (0 : ℤ) ≠ 2 := by
  refine ⟨by decide, by decide, by decide⟩

/-- C3: for every well-formed direction raster whose flow graph on data
cells is acyclic, the sum of the final area over all sink cells equals the
total number of data cells. -/
theorem C3_mass_conservation :
    ∀ g : Array2D ℤ, WFDirs g → Acyclic g →
      (((cellsF g).filter fun c => isSink g c).sum (d8_flow_accum g).area) =
        (numDataCells g : ℤ) := by
  intro g hWF hA
  exact sum_area_sinks hA (inv_d8_flow_accum hWF) (d8_flow_accum_pend g)

/-- Witness for C3 at the 1×5 chain raster: hypotheses discharged, the sink
sum equals the number of data cells (5). -/
theorem C3_mass_conservation_witness :
    WFDirs chain5 ∧
      (((cellsF chain5).filter fun c => isSink chain5 c).sum
        (d8_flow_accum chain5).area) = (numDataCells chain5 : ℤ) := by
  have hA : Acyclic chain5 := acyclic_of_rank (fun c => c.1.toNat) (by decide)
  exact ⟨by decide, C3_mass_conservation chain5 (by decide) hA⟩

/-- C4: for every well-formed direction raster, every maximal run of the
drain phase — any processing order that dequeues a pending cell only after
all its upstream contributors were processed, e.g. the FIFO queue, a LIFO
stack or a priority queue — produces the same final area raster. -/
theorem C4_order_independence :
    ∀ (g : Array2D ℤ) (s t : DState), WFDirs g →
      Run g (initState g) s → s.pend = [] →
      Run g (initState g) t → t.pend = [] →
      ∀ c, s.area c = t.area c := by
  intro g s t hWF hs hsmax ht htmax
  exact area_unique (inv_run hWF (inv_init g) hs) (inv_run hWF (inv_init g) ht)
    hsmax htmax

/-- Witness for C4 on a 2×1 raster with two independent `NO_FLOW` cells: the
FIFO run and the run processing the two sources in the opposite order reach
empty queues with identical area rasters. -/
theorem C4_order_independence_witness :
    (d8_flow_accum twoSinks).area (0, 0) =
      (processCell twoSinks (0, 0) []
        (processCell twoSinks (1, 0) [(0, 0)] (initState twoSinks))).area (0, 0) := by
  have hstep1 : Step twoSinks (initState twoSinks)
      (processCell twoSinks (1, 0) [(0, 0)] (initState twoSinks)) :=
    ⟨[(0, 0)], (1, 0), [], by decide, rfl⟩
  have hstep2 : Step twoSinks (processCell twoSinks (1, 0) [(0, 0)] (initState twoSinks))
      (processCell twoSinks (0, 0) []
        (processCell twoSinks (1, 0) [(0, 0)] (initState twoSinks))) :=
    ⟨[], (0, 0), [], by decide, rfl⟩
  have hrun : Run twoSinks (initState twoSinks)
      (processCell twoSinks (0, 0) []
        (processCell twoSinks (1, 0) [(0, 0)] (initState twoSinks))) :=
    Relation.ReflTransGen.head hstep1 (Relation.ReflTransGen.head hstep2
      Relation.ReflTransGen.refl)
  exact C4_order_independence twoSinks (d8_flow_accum twoSinks) _ (by decide)
    (d8_flow_accum_run twoSinks) (d8_flow_accum_pend twoSinks) hrun (by decide) (0, 0)

/-- C10: for every well-formed direction raster the drain loop of
`d8_flow_accum` terminates with an empty queue, and no cell is dequeued
(hence pushed, hence self-incremented by `area(c)++`) more than once: the
dequeue trace has no duplicates. -/
theorem C10_push_once_terminates :
    ∀ g : Array2D ℤ, WFDirs g →
      (d8_flow_accum g).pend = [] ∧ (d8_flow_accum g).done.Nodup := by
  intro g hWF
  exact ⟨d8_flow_accum_pend g, (nodup_parts (inv_d8_flow_accum hWF).nodup).1⟩

/-- Witness for C10 at the two-cell cycle raster (the loop terminates even
on cyclic input). -/
theorem C10_push_once_terminates_witness :
    WFDirs cyc2 ∧ (d8_flow_accum cyc2).pend = [] ∧ (d8_flow_accum cyc2).done.Nodup :=
  ⟨by decide, C10_push_once_terminates cyc2 (by decide)⟩

/-! ### Claims C6 and C7 about `d8_upslope_cells` -/

theorem visitNeighbor_spec (g : Array2D ℤ) (c : Cell) (n : ℤ) (u : UState) :
    visitNeighbor g c n u =
      if g.inGrid (c.1 + dx8 n, c.2 + dy8 n) ∧
          g.data (c.1 + dx8 n, c.2 + dy8 n) ≠ NO_FLOW ∧
          g.data (c.1 + dx8 n, c.2 + dy8 n) ≠ g.noData ∧
          u.upslope (c.1 + dx8 n, c.2 + dy8 n) = FLOWDIR_NO_DATA ∧
          n = d8_inverse (g.data (c.1 + dx8 n, c.2 + dy8 n)) then
        ⟨Function.update u.upslope (c.1 + dx8 n, c.2 + dy8 n) 1,
          u.queue ++ [(c.1 + dx8 n, c.2 + dy8 n)]⟩
      else u := by
  unfold visitNeighbor
  dsimp only
  split_ifs with h1 h2 h3 h4 <;> first | rfl | tauto

/-- C6 (amended): the expansion of `d8_upslope_cells` marks the `n`-th
neighbour of a dequeued cell `c` with 1 and enqueues it exactly when it is
in-grid, its direction is neither `NO_FLOW` nor nodata, it is still at the
output nodata sentinel, and `n = d8_inverse[flowdirs(neighbour)]`; and on
the 10×10 all-east raster, the call with the degenerate vertical segment
`(5,0)-(5,9)` (whose Bresenham slope is the IEEE infinity `9/0`) marks only
`(5,0)` and `(6,0)` with 2 and `(0,0) … (4,0)` with 1, every other cell
staying nodata. -/
theorem C6_upslope_marking :
    (∀ (g : Array2D ℤ) (c : Cell) (n : ℤ) (u : UState),
      visitNeighbor g c n u =
        if g.inGrid (c.1 + dx8 n, c.2 + dy8 n) ∧
            g.data (c.1 + dx8 n, c.2 + dy8 n) ≠ NO_FLOW ∧
            g.data (c.1 + dx8 n, c.2 + dy8 n) ≠ g.noData ∧
            u.upslope (c.1 + dx8 n, c.2 + dy8 n) = FLOWDIR_NO_DATA ∧
            n = d8_inverse (g.data (c.1 + dx8 n, c.2 + dy8 n)) then
          ⟨Function.update u.upslope (c.1 + dx8 n, c.2 + dy8 n) 1,
            u.queue ++ [(c.1 + dx8 n, c.2 + dy8 n)]⟩
        else u) ∧
    (cellsRowMajor allEast10).map (d8_upslope_cells 5 0 5 9 allEast10).upslope =
      (cellsRowMajor allEast10).map upslopeTraceExpected :=
  ⟨visitNeighbor_spec, by decide⟩

/-- C6 counterexample: tracing the vertical segment `x = 5, y = 0..9` on the
10×10 all-east raster does *not* mark column 5 with 2 — the cell `(5,3)`
stays at the nodata sentinel, because the degenerate `Δx = 0` Bresenham loop
only visits `x = 5` once (with `deltaerr = 9/0 = +∞`). -/
theorem C6_upslope_marking_counterexample :
    (d8_upslope_cells 5 0 5 9 allEast10).upslope (5, 3) = FLOWDIR_NO_DATA ∧
      FLOWDIR_NO_DATA ≠ (2 : ℤ) := by
  refine ⟨by decide, by decide⟩

set_option maxHeartbeats 1600000 in
/-- C7: `d8_upslope_cells` performs no validation of its endpoints: called
with the off-grid endpoint `(-3, 0)` on the 10×10 all-east raster it runs to
completion (the embedding is a total function — the source has no error
path), commits output (cell `(0,0)` is marked 2) and even writes the
out-of-grid cell `(-3, 0)` — the unchecked out-of-bounds raster write of the
C++ source. -/
theorem C7_upslope_no_endpoint_validation :
    (d8_upslope_cells (-3) 0 2 0 allEast10).upslope (0, 0) = 2 ∧
      (d8_upslope_cells (-3) 0 2 0 allEast10).upslope (-3, 0) = 2 ∧
      (d8_upslope_cells (-3) 0 2 0 allEast10).upslope (3, 0) = FLOWDIR_NO_DATA := by
  refine ⟨by decide, by decide, by decide⟩

/-! ### Claim C5 about `TA_SPI` and `TA_CTI` -/

/-- C5: `TA_SPI` and `TA_CTI` fail exactly when the flow-accumulation and
slope inputs disagree in width or height; on failure the result raster of
the caller is left unchanged, and on success it is resized to the shape of
the flow-accumulation raster with nodata sentinel `-1`. -/
theorem C5_spi_cti_shape_check :
    ∀ fa rs res : Array2D ℝ,
      (((∃ e, (TA_SPI fa rs res).1 = Except.error e) ↔
          (fa.width ≠ rs.width ∨ fa.height ≠ rs.height)) ∧
        ((fa.width ≠ rs.width ∨ fa.height ≠ rs.height) →
          (TA_SPI fa rs res).2 = res) ∧
        (fa.width = rs.width → fa.height = rs.height →
          (TA_SPI fa rs res).2.width = fa.width ∧
            (TA_SPI fa rs res).2.height = fa.height ∧
            (TA_SPI fa rs res).2.noData = -1)) ∧
      (((∃ e, (TA_CTI fa rs res).1 = Except.error e) ↔
          (fa.width ≠ rs.width ∨ fa.height ≠ rs.height)) ∧
        ((fa.width ≠ rs.width ∨ fa.height ≠ rs.height) →
          (TA_CTI fa rs res).2 = res) ∧
        (fa.width = rs.width → fa.height = rs.height →
          (TA_CTI fa rs res).2.width = fa.width ∧
            (TA_CTI fa rs res).2.height = fa.height ∧
            (TA_CTI fa rs res).2.noData = -1)) := by
  intro fa rs res
  unfold TA_SPI TA_CTI
  by_cases h : fa.width ≠ rs.width ∨ fa.height ≠ rs.height
  · rw [if_pos h, if_pos h]
    refine ⟨⟨⟨fun _ => h, fun _ => ⟨spiMismatchMsg, rfl⟩⟩, fun _ => rfl, ?_⟩,
            ⟨fun _ => h, fun _ => ⟨ctiMismatchMsg, rfl⟩⟩, fun _ => rfl, ?_⟩ <;>
    · intro hw hh
      rcases h with h | h
      · exact absurd hw h
      · exact absurd hh h
  · rw [if_neg h, if_neg h]
    refine ⟨⟨⟨fun he => ?_, fun hm => absurd hm h⟩, fun hm => absurd hm h,
            fun _ _ => ⟨rfl, rfl, rfl⟩⟩,
            ⟨fun he => ?_, fun hm => absurd hm h⟩, fun hm => absurd hm h,
            fun _ _ => ⟨rfl, rfl, rfl⟩⟩ <;>
    · obtain ⟨e, he⟩ := he
      exact Except.noConfusion he

/-- C5 witness: with a 2×1 flow-accumulation raster and a 3×1 slope raster
both calls fail and leave the 1×1 result raster untouched; with matching
2×1 inputs both calls succeed and the result takes the 2×1 shape with
nodata `-1`. -/
theorem C5_spi_cti_shape_check_witness :
    (∃ e, (TA_SPI spiFa spiRsBad spiRes).1 = Except.error e) ∧
      (TA_SPI spiFa spiRsBad spiRes).2 = spiRes ∧
      (TA_CTI spiFa spiRsBad spiRes).2 = spiRes ∧
      (TA_SPI spiFa spiRs spiRes).2.width = 2 ∧
      (TA_SPI spiFa spiRs spiRes).2.noData = -1 ∧
      (TA_CTI spiFa spiRs spiRes).2.noData = -1 := by
  have hbad : spiFa.width ≠ spiRsBad.width ∨ spiFa.height ≠ spiRsBad.height :=
    Or.inl (by decide)
  have hw : spiFa.width = spiRs.width := rfl
  have hh : spiFa.height = spiRs.height := rfl
  refine ⟨(C5_spi_cti_shape_check spiFa spiRsBad spiRes).1.1.2 hbad,
    (C5_spi_cti_shape_check spiFa spiRsBad spiRes).1.2.1 hbad,
    (C5_spi_cti_shape_check spiFa spiRsBad spiRes).2.2.1 hbad,
    ((C5_spi_cti_shape_check spiFa spiRs spiRes).1.2.2 hw hh).1,
    ((C5_spi_cti_shape_check spiFa spiRs spiRes).1.2.2 hw hh).2.2,
    ((C5_spi_cti_shape_check spiFa spiRs spiRes).2.2.2 hw hh).2.2⟩

/-! ### Claim C8 about `Terrain_Aspect` on flat neighbourhoods -/

theorem atan2ieee_flat : atan2ieee 0 0 false true = Real.pi := by
  unfold atan2ieee
  norm_num

/-- C8 (amended): on any cell of a raster with positive cell lengths whose
(edge/nodata-replaced, scaled) 3×3 neighbourhood is perfectly flat — so that
the exact values of `dzdx` and `dzdy` are 0 — `Terrain_Aspect` returns 270,
not 0: the flat neighbourhood gives `dzdx = +0.0`, IEEE
`atan2(+0.0, -0.0) = π`, so `the_aspect = 180` and the compass transform
takes the branch `360 - 180 + 90`. -/
theorem C8_flat_aspect (el : Array2D ℝ) (x y : ℤ) (zscale : ℝ)
    (hX : 0 < el.cellLengthX) (hY : 0 < el.cellLengthY)
    (h : ∃ v, TerrainSetup el x y zscale = ⟨v, v, v, v, v, v, v, v, v⟩) :
    Terrain_Aspect el x y zscale = 270 := by
  obtain ⟨v, hv⟩ := h
  unfold Terrain_Aspect
  rw [hv]
  dsimp only
  rw [show v + 2 * v + v - (v + 2 * v + v) = 0 from by ring]
  simp only [zero_div, neg_zero]
  rw [decide_eq_true hX, decide_eq_false (not_lt.mpr hY.le), atan2ieee_flat]
  have hpi : 180 / Real.pi * Real.pi = 180 := by
    field_simp
  rw [hpi]
  norm_num

/-- C8 witness: the centre of the 1×1 constant raster (unit cell lengths)
has a flat replaced neighbourhood, and its aspect evaluates to 270. -/
theorem C8_flat_aspect_witness : Terrain_Aspect flat1 0 0 1 = 270 := by
  refine C8_flat_aspect flat1 0 0 1 (by norm_num [flat1]) (by norm_num [flat1]) ⟨0, ?_⟩
  simp [TerrainSetup, flat1]

/-- C8 counterexample: the claim says a flat neighbourhood yields aspect 0,
but on the 1×1 constant raster (whose replaced 3×3 neighbourhood is flat,
with exact `dzdx = dzdy = 0` and IEEE signs `dzdy = +0.0`, `-dzdx = -0.0`)
`Terrain_Aspect` returns 270, and 270 ≠ 0. -/
theorem C8_flat_aspect_counterexample :
    Terrain_Aspect flat1 0 0 1 = 270 ∧ (270 : ℝ) ≠ 0 := by
  constructor
  · have hflat : TerrainSetup flat1 0 0 1 = ⟨0, 0, 0, 0, 0, 0, 0, 0, 0⟩ := by
      simp [TerrainSetup, flat1]
    unfold Terrain_Aspect
    rw [hflat]
    dsimp only
    rw [show (0 : ℝ) + 2 * 0 + 0 - (0 + 2 * 0 + 0) = 0 from by ring]
    simp only [zero_div, neg_zero]
    rw [decide_eq_true (show (0 : ℚ) < flat1.cellLengthX from by norm_num [flat1]),
      decide_eq_false (show ¬ flat1.cellLengthY < 0 from by norm_num [flat1]),
      atan2ieee_flat]
    have hpi : 180 / Real.pi * Real.pi = 180 := by
      field_simp
    rw [hpi]
    norm_num
  · norm_num

/-! ### Claim C9 about the terrain operators on a planar surface -/

/-- C9: on a planar elevation raster `E(x, y) = a*x + b*y + c` with
`zscale = 1` and square cells of side `L`, at any cell whose full 3×3
neighbourhood is in-grid data, the three curvatures are 0 and the rise/run
slope is `sqrt (a^2 + b^2) / L`. -/
theorem C9_planar_surface (el : Array2D ℝ) (a b c : ℝ) (L : ℚ) (x y : ℤ)
    (hplanar : ∀ z : Cell, el.data z = a * (z.1 : ℝ) + b * (z.2 : ℝ) + c)
    (hLX : el.cellLengthX = L) (hLY : el.cellLengthY = L) (hL : 0 < (L : ℝ))
    (hnb : ∀ i j : ℤ, (i = x - 1 ∨ i = x ∨ i = x + 1) →
      (j = y - 1 ∨ j = y ∨ j = y + 1) →
      el.inGrid (i, j) ∧ el.data (i, j) ≠ el.noData) :
    Terrain_Curvature el x y 1 = 0 ∧
      Terrain_Planform_Curvature el x y 1 = 0 ∧
      Terrain_Profile_Curvature el x y 1 = 0 ∧
      Terrain_Slope_RiseRun el x y 1 = Real.sqrt (a * a + b * b) / (L : ℝ) := by
  have hL0 : (L : ℝ) ≠ 0 := ne_of_gt hL
  have hpick : ∀ i j : ℤ, (i = x - 1 ∨ i = x ∨ i = x + 1) →
      (j = y - 1 ∨ j = y ∨ j = y + 1) →
      (if el.inGrid (i, j) ∧ el.data (i, j) ≠ el.noData then el.data (i, j)
        else el.data (x, y)) = a * ((i : ℤ) : ℝ) + b * ((j : ℤ) : ℝ) + c := by
    intro i j hi hj
    rw [if_pos (hnb i j hi hj), hplanar (i, j)]
  have htsv : TerrainSetup el x y 1 =
      ⟨a * ((x - 1 : ℤ) : ℝ) + b * ((y - 1 : ℤ) : ℝ) + c,
        a * (x : ℝ) + b * ((y - 1 : ℤ) : ℝ) + c,
        a * ((x + 1 : ℤ) : ℝ) + b * ((y - 1 : ℤ) : ℝ) + c,
        a * ((x - 1 : ℤ) : ℝ) + b * (y : ℝ) + c,
        a * (x : ℝ) + b * (y : ℝ) + c,
        a * ((x + 1 : ℤ) : ℝ) + b * (y : ℝ) + c,
        a * ((x - 1 : ℤ) : ℝ) + b * ((y + 1 : ℤ) : ℝ) + c,
        a * (x : ℝ) + b * ((y + 1 : ℤ) : ℝ) + c,
        a * ((x + 1 : ℤ) : ℝ) + b * ((y + 1 : ℤ) : ℝ) + c⟩ := by
    unfold TerrainSetup
    dsimp only
    simp only [mul_one]
    rw [hpick (x - 1) (y - 1) (Or.inl rfl) (Or.inl rfl),
      hpick x (y - 1) (Or.inr (Or.inl rfl)) (Or.inl rfl),
      hpick (x + 1) (y - 1) (Or.inr (Or.inr rfl)) (Or.inl rfl),
      hpick (x - 1) y (Or.inl rfl) (Or.inr (Or.inl rfl)),
      hpick (x + 1) y (Or.inr (Or.inr rfl)) (Or.inr (Or.inl rfl)),
      hpick (x - 1) (y + 1) (Or.inl rfl) (Or.inr (Or.inr rfl)),
      hpick x (y + 1) (Or.inr (Or.inl rfl)) (Or.inr (Or.inr rfl)),
      hpick (x + 1) (y + 1) (Or.inr (Or.inr rfl)) (Or.inr (Or.inr rfl)),
      hplanar (x, y)]
  refine ⟨?_, ?_, ?_, ?_⟩
  · unfold Terrain_Curvature TerrainCurvatureSetup
    rw [htsv]
    dsimp only
    push_cast
    ring
  · unfold Terrain_Planform_Curvature TerrainCurvatureSetup
    rw [htsv]
    dsimp only
    split_ifs with hc
    · rfl
    · push_cast
      ring
  · unfold Terrain_Profile_Curvature TerrainCurvatureSetup
    rw [htsv]
    dsimp only
    split_ifs with hc
    · rfl
    · push_cast
      ring
  · unfold Terrain_Slope_RiseRun
    rw [htsv, hLX, hLY]
    dsimp only
    conv_rhs => rw [← Real.sqrt_mul_self hL.le]
    conv_rhs =>
      rw [← Real.sqrt_div (add_nonneg (mul_self_nonneg a) (mul_self_nonneg b))
        ((L : ℝ) * (L : ℝ))]
    congr 1
    push_cast
    field_simp
    ring

/-- C9 witness: on the 5×5 planar raster `E(x, y) = 3x` with unit cells the
three curvatures at the interior cell `(2, 2)` are 0 and the rise/run slope
is `sqrt (3*3 + 0*0) / 1`. -/
theorem C9_planar_surface_witness :
    Terrain_Curvature plane5 2 2 1 = 0 ∧
      Terrain_Planform_Curvature plane5 2 2 1 = 0 ∧
      Terrain_Profile_Curvature plane5 2 2 1 = 0 ∧
      Terrain_Slope_RiseRun plane5 2 2 1 =
        Real.sqrt (3 * 3 + 0 * 0) / ((1 : ℚ) : ℝ) := by
  refine C9_planar_surface plane5 3 0 0 1 2 2 ?_ rfl rfl (by norm_num) ?_
  · intro z
    show (3 : ℝ) * (z.1 : ℝ) = _
    ring
  · intro i j hi hj
    rcases hi with rfl | rfl | rfl <;> rcases hj with rfl | rfl | rfl <;>
      exact ⟨by decide, by norm_num [plane5]⟩

end RichDEM
